import Mathlib

/-!
Verification development for the EpiStatKit statistical engine.

The definitions below are a shallow embedding of the TypeScript sources,
with real numbers standing for JavaScript floating-point values:

* `src/confidenceIntervals/utils.ts` — `erf`, `getNormalCDF`, `getZCritical`,
  `getTPValue`, `getChiSqPValue`, `getChiSqCritical`, `getFCritical`;
* `src/confidenceIntervals/ciRatePoisson.ts` — the Poisson rate interval;
* `src/calculators/confidenceIntervals/ciProportion.ts` — the proportion intervals;
* the 2×2-table estimators (`applyContinuityCorrection`, `computeRR`,
  `computeOR`, `computeRD`), the chi-square 2×2 test, the standardized-ratio
  (SMR) interval, and the two-proportion / non-inferiority sample-size solvers.

Integer-typed inputs (counts, degrees of freedom) are embedded as `ℕ`;
everything else as `ℝ`.
-/

/-- Inner Horner polynomial of the Abramowitz–Stegun rational approximation of
the error function: `((((a5*t + a4)*t + a3)*t + a2)*t + a1)` with the
coefficients of `erf` in `src/confidenceIntervals/utils.ts`. -/
noncomputable def erfPoly (t : ℝ) : ℝ :=
  ((((1.061405429 * t + (-1.453152027)) * t + 1.421413741) * t +
      (-0.284496736)) * t + 0.254829592)

/-- `erf` from `src/confidenceIntervals/utils.ts`: numerical approximation of
the error function, `sign(x) * (1 - P(t) * t * exp(-x²))` with
`t = 1/(1 + p*|x|)`. -/
noncomputable def erf (x : ℝ) : ℝ :=
  (if x < 0 then (-1 : ℝ) else 1) *
    (1 - erfPoly (1 / (1 + 0.3275911 * |x|)) * (1 / (1 + 0.3275911 * |x|)) *
      Real.exp (-(|x| * |x|)))

/-- `getNormalCDF` from `src/confidenceIntervals/utils.ts`. -/
noncomputable def getNormalCDF (z : ℝ) : ℝ :=
  0.5 * (1 + erf (z / Real.sqrt 2))

/-- Numerator polynomial of the probit rational approximation in
`getZCritical` (`num = c[0] + c[1]*t + c[2]*t*t`). -/
noncomputable def zNum (t : ℝ) : ℝ := 2.515517 + 0.802853 * t + 0.010328 * (t * t)

/-- Denominator polynomial of the probit rational approximation in
`getZCritical` (`den = 1 + d[0]*t + d[1]*t*t + d[2]*t*t*t`). -/
noncomputable def zDen (t : ℝ) : ℝ :=
  1 + 1.432788 * t + 0.189269 * (t * t) + 0.001308 * (t * t * t)

/-- `getZCritical` from `src/confidenceIntervals/utils.ts`: probit
approximation keyed to `p = 1 - alpha/2` where `alpha = 1 - confidence/100`. -/
noncomputable def getZCritical (confidence : ℝ) : ℝ :=
  let alpha := 1 - confidence / 100
  let p := 1 - alpha / 2
  let t := Real.sqrt (-2 * Real.log (1 - p))
  t - zNum t / zDen t

/-- Result triple of `getTPValue`. -/
structure TPValue where
  twoSided : ℝ
  lower : ℝ
  upper : ℝ

/-- `term` of the even-`df` loop of `getTPValue` after `j` iterations:
iteration `j+1` is loop index `i = 2*(j+1)` and multiplies by
`(i-1)/i * cos²`. -/
noncomputable def evenTerm (s c2 : ℝ) : ℕ → ℝ
  | 0 => s
  | j + 1 => evenTerm s c2 j * ((2 * (j : ℝ) + 1) / (2 * (j : ℝ) + 2)) * c2

/-- `poly` of the even-`df` loop of `getTPValue` after `j` iterations. -/
noncomputable def evenPoly (s c2 : ℝ) : ℕ → ℝ
  | 0 => s
  | j + 1 => evenPoly s c2 j + evenTerm s c2 (j + 1)

/-- `term` of the odd-`df` loop of `getTPValue` after `j` iterations:
iteration `j+1` is loop index `i = 2*(j+1)+1` and multiplies by
`(i-1)/i * cos²`. -/
noncomputable def oddTerm (s c2 : ℝ) : ℕ → ℝ
  | 0 => s
  | j + 1 => oddTerm s c2 j * ((2 * (j : ℝ) + 2) / (2 * (j : ℝ) + 3)) * c2

/-- `poly` of the odd-`df` loop of `getTPValue` after `j` iterations. -/
noncomputable def oddPoly (s c2 : ℝ) : ℕ → ℝ
  | 0 => s
  | j + 1 => oddPoly s c2 j + oddTerm s c2 (j + 1)


/-- Closed form of the accumulated even-loop coefficient after `j`
iterations: `(1·3⋯(2j-1))/(2·4⋯(2j))`. -/
noncomputable def evenC : ℕ → ℝ
  | 0 => 1
  | j + 1 => evenC j * ((2 * (j : ℝ) + 1) / (2 * (j : ℝ) + 2))

/-- Closed form of the accumulated odd-loop coefficient after `j`
iterations: `(2·4⋯(2j))/(3·5⋯(2j+1))`. -/
noncomputable def oddC : ℕ → ℝ
  | 0 => 1
  | j + 1 => oddC j * ((2 * (j : ℝ) + 2) / (2 * (j : ℝ) + 3))

/-- Two-sided trigonometric-recursion `p` of `getTPValue` for `df ≤ 100`.
For even `df` the loop runs `(df-2)/2` times, for odd `df ≥ 3` it runs
`(df-3)/2` times. -/
noncomputable def tPValueP (t : ℝ) (df : ℕ) : ℝ :=
  let angle := Real.arctan (|t| / Real.sqrt df)
  if df = 1 then 1 - (2 / Real.pi) * angle
  else
    let s := Real.sin angle
    let c := Real.cos angle
    if df % 2 = 1 then
      1 - (2 / Real.pi) * (angle + oddPoly s (c * c) ((df - 3) / 2) * c)
    else
      1 - evenPoly s (c * c) ((df - 2) / 2) * c

/-- `getTPValue` from `src/confidenceIntervals/utils.ts`. -/
noncomputable def getTPValue (t : ℝ) (df : ℕ) : TPValue :=
  if 100 < df then
    let pZ := getNormalCDF |t|
    let lower := if t < 0 then pZ else 1 - pZ
    ⟨2 * (1 - pZ), lower, 1 - lower⟩
  else
    let p := tPValueP t df
    ⟨max 0 (min 1 p),
     if t < 0 then 1 - p / 2 else p / 2,
     if 0 < t then 1 - p / 2 else p / 2⟩

/-- `getChiSqPValue` from `src/confidenceIntervals/utils.ts`
(inverse Wilson–Hilferty transform; `chi2 ≤ 0` returns 1). -/
noncomputable def getChiSqPValue (chi2 df : ℝ) : ℝ :=
  if chi2 ≤ 0 then 1
  else
    let z := (chi2 / df) ^ ((1 : ℝ) / 3) - (1 - 2 / (9 * df))
    let denom := Real.sqrt (2 / (9 * df))
    1 - getNormalCDF (z / denom)

/-- `getChiSqCritical` from `src/confidenceIntervals/utils.ts`
(Wilson–Hilferty transform with `z = getZCritical((1-p)*100)`; `df ≤ 0`
returns 0). -/
noncomputable def getChiSqCritical (p df : ℝ) : ℝ :=
  if df ≤ 0 then 0
  else
    let z := getZCritical ((1 - p) * 100)
    df * (1 - 2 / (9 * df) + z * Real.sqrt (2 / (9 * df))) ^ (3 : ℕ)

/-- `lambda` helper of `getFCritical` (`(z² - 3)/6`). -/
noncomputable def lambdaF (z : ℝ) : ℝ := (z * z - 3) / 6

/-- `getFCritical` from `src/confidenceIntervals/utils.ts`. -/
noncomputable def getFCritical (p d1 d2 : ℝ) : ℝ :=
  let z := getZCritical (p * 100)
  let h := 2 / (1 / d1 + 1 / d2)
  let g := (d2 - d1) / (d1 * d2)
  Real.exp (2 * (z * Real.sqrt (h + lambdaF z) / h - g * (z * z + 2)))

/-! ### Poisson rate interval (`src/confidenceIntervals/ciRatePoisson.ts`) -/

/-- Observed rate `k / T` of `ciRatePoisson.compute`. -/
noncomputable def poissonRate (k : ℕ) (T : ℝ) : ℝ := k / T

/-- `exactLower` of `ciRatePoisson.compute`. -/
noncomputable def poissonExactLower (k : ℕ) (T conf : ℝ) : ℝ :=
  if k = 0 then 0
  else getChiSqCritical ((1 - conf / 100) / 2) (2 * k) / (2 * T)

/-- `exactUpper` of `ciRatePoisson.compute`. -/
noncomputable def poissonExactUpper (k : ℕ) (T conf : ℝ) : ℝ :=
  getChiSqCritical (1 - (1 - conf / 100) / 2) (2 * ((k : ℝ) + 1)) / (2 * T)

/-- `byarTerm` of `ciRatePoisson.compute`. -/
noncomputable def byarTerm (k : ℕ) (conf : ℝ) : ℝ :=
  (getZCritical conf / 3) * Real.sqrt (1 / ((k : ℝ) + 0.5))

/-- `byarLower` of `ciRatePoisson.compute`. -/
noncomputable def poissonByarLower (k : ℕ) (T conf : ℝ) : ℝ :=
  (((k : ℝ) + 0.5) *
      (1 - 1 / (9 * ((k : ℝ) + 0.5)) - byarTerm k conf) ^ (3 : ℕ)) / T

/-- `byarUpper` of `ciRatePoisson.compute`. -/
noncomputable def poissonByarUpper (k : ℕ) (T conf : ℝ) : ℝ :=
  (((k : ℝ) + 0.5) *
      (1 - 1 / (9 * ((k : ℝ) + 0.5)) + byarTerm k conf) ^ (3 : ℕ)) / T

/-! ### Proportion intervals
(`src/calculators/confidenceIntervals/ciProportion.ts`) -/

/-- Point estimate `p = x/n` of `ciProportion.compute`. -/
noncomputable def propPhat (x n : ℕ) : ℝ := (x : ℝ) / n

/-- Wald lower bound of `ciProportion.compute`. -/
noncomputable def waldLow (x n : ℕ) (conf : ℝ) : ℝ :=
  propPhat x n - getZCritical conf *
    Real.sqrt (propPhat x n * (1 - propPhat x n) / n)

/-- Wald upper bound of `ciProportion.compute`. -/
noncomputable def waldHigh (x n : ℕ) (conf : ℝ) : ℝ :=
  propPhat x n + getZCritical conf *
    Real.sqrt (propPhat x n * (1 - propPhat x n) / n)

/-- Wilson-score lower bound of `ciProportion.compute`. -/
noncomputable def wilsonLow (x n : ℕ) (conf : ℝ) : ℝ :=
  let p := propPhat x n
  let z := getZCritical conf
  ((p + z * z / (2 * n)) -
      z * Real.sqrt (p * (1 - p) / n + z * z / (4 * (n : ℝ) * n))) /
    (1 + z * z / n)

/-- Wilson-score upper bound of `ciProportion.compute`. -/
noncomputable def wilsonHigh (x n : ℕ) (conf : ℝ) : ℝ :=
  let p := propPhat x n
  let z := getZCritical conf
  ((p + z * z / (2 * n)) +
      z * Real.sqrt (p * (1 - p) / n + z * z / (4 * (n : ℝ) * n))) /
    (1 + z * z / n)

/-- Wilson continuity-corrected lower bound of `ciProportion.compute`. -/
noncomputable def wilsonCCLow (x n : ℕ) (conf : ℝ) : ℝ :=
  let p := propPhat x n
  let z := getZCritical conf
  (2 * n * p + z * z - 1 -
      z * Real.sqrt (z * z - (2 + 1 / n) + 4 * p * ((n : ℝ) * (1 - p) + 1))) /
    (2 * ((n : ℝ) + z * z))

/-- Wilson continuity-corrected upper bound of `ciProportion.compute`. -/
noncomputable def wilsonCCHigh (x n : ℕ) (conf : ℝ) : ℝ :=
  let p := propPhat x n
  let z := getZCritical conf
  (2 * n * p + z * z + 1 +
      z * Real.sqrt (z * z + (2 - 1 / n) + 4 * p * ((n : ℝ) * (1 - p) - 1))) /
    (2 * ((n : ℝ) + z * z))

/-- Clopper–Pearson lower bound of `ciProportion.compute`
(`0` when `x = 0`, otherwise via `getFCritical`). -/
noncomputable def cpLow (x n : ℕ) (conf : ℝ) : ℝ :=
  if 0 < x then
    let fValL := getFCritical (1 - (1 - conf / 100) / 2)
      (2 * ((n : ℝ) - x + 1)) (2 * (x : ℝ))
    (x : ℝ) / (x + ((n : ℝ) - x + 1) * fValL)
  else 0

/-- Clopper–Pearson upper bound of `ciProportion.compute`
(`1` when `x = n`, otherwise via `getFCritical`). -/
noncomputable def cpHigh (x n : ℕ) (conf : ℝ) : ℝ :=
  if x < n then
    let fValU := getFCritical (1 - (1 - conf / 100) / 2)
      (2 * ((x : ℝ) + 1)) (2 * ((n : ℝ) - x))
    (((x : ℝ) + 1) * fValU) / (((n : ℝ) - x) + ((x : ℝ) + 1) * fValU)
  else 1

/-! ### 2×2-table estimators (`Table2x2`, `applyContinuityCorrection`,
`computeRR`, `computeOR`, `computeRD`) -/

/-- `Table2x2` interface: `a` exposed cases, `b` exposed controls,
`c` unexposed cases, `d` unexposed controls. -/
structure Table2x2 where
  a : ℝ
  b : ℝ
  c : ℝ
  d : ℝ

/-- Interval-valued result record `{value, lower, upper}`. -/
structure Interval3 where
  value : ℝ
  lower : ℝ
  upper : ℝ

/-- `applyContinuityCorrection`: if any cell is exactly 0, add 0.5 to all four
cells; otherwise return the table unchanged. -/
noncomputable def applyContinuityCorrection (t : Table2x2) : Table2x2 :=
  if t.a = 0 ∨ t.b = 0 ∨ t.c = 0 ∨ t.d = 0 then
    ⟨t.a + 0.5, t.b + 0.5, t.c + 0.5, t.d + 0.5⟩
  else t

/-- `computeRR`: risk ratio with log-transform CI, computed on the
continuity-corrected table. -/
noncomputable def computeRR (tb : Table2x2) (conf : ℝ) : Interval3 :=
  let t := applyContinuityCorrection tb
  let r1 := t.a / (t.a + t.b)
  let r2 := t.c / (t.c + t.d)
  let rr := r1 / r2
  let seLog := Real.sqrt ((1 / t.a - 1 / (t.a + t.b)) + (1 / t.c - 1 / (t.c + t.d)))
  let z := getZCritical conf
  ⟨rr, Real.exp (Real.log rr - z * seLog), Real.exp (Real.log rr + z * seLog)⟩

/-- `computeOR`: odds ratio with Woolf CI, computed on the
continuity-corrected table. -/
noncomputable def computeOR (tb : Table2x2) (conf : ℝ) : Interval3 :=
  let t := applyContinuityCorrection tb
  let orv := (t.a * t.d) / (t.b * t.c)
  let seLog := Real.sqrt (1 / t.a + 1 / t.b + 1 / t.c + 1 / t.d)
  let z := getZCritical conf
  ⟨orv, Real.exp (Real.log orv - z * seLog), Real.exp (Real.log orv + z * seLog)⟩

/-- Result record of `computeRD`; the infinite `nnt` at `rd = 0` is
represented by `none`. -/
structure RDResult where
  value : ℝ
  lower : ℝ
  upper : ℝ
  nnt : Option ℝ

/-- `computeRD`: risk difference on the uncorrected table. -/
noncomputable def computeRD (tb : Table2x2) (conf : ℝ) : RDResult :=
  let r1 := tb.a / (tb.a + tb.b)
  let r2 := tb.c / (tb.c + tb.d)
  let rd := r1 - r2
  let se := Real.sqrt (r1 * (1 - r1) / (tb.a + tb.b) + r2 * (1 - r2) / (tb.c + tb.d))
  let z := getZCritical conf
  ⟨rd, rd - z * se, rd + z * se,
    if rd = 0 then none else some ((⌈|1 / rd|⌉ : ℤ) : ℝ)⟩

/-- Point risk ratio `r1 / r2` of a 2×2 table, written from the spec
formula `RR = [a/(a+b)] / [c/(c+d)]` (for comparison with `computeRR`). -/
noncomputable def pointRiskRatio (t : Table2x2) : ℝ :=
  (t.a / (t.a + t.b)) / (t.c / (t.c + t.d))

/-- Point odds ratio `ad / bc` of a 2×2 table, written from the spec formula
`OR = (a*d)/(b*c)` (for comparison with `computeOR`). -/
noncomputable def pointOddsRatio (t : Table2x2) : ℝ :=
  (t.a * t.d) / (t.b * t.c)

/-- Point risk difference of a 2×2 table, written from the spec formula
`RD = a/(a+b) - c/(c+d)` (for comparison with `computeRD`). -/
noncomputable def pointRiskDifference (t : Table2x2) : ℝ :=
  t.a / (t.a + t.b) - t.c / (t.c + t.d)

/-! ### Chi-square 2×2 independence test (`chiSquare.compute`) -/

/-- Chi-square statistic of `chiSquare.compute`: `none` when some marginal
total is zero, otherwise `n * correctedNum² / (R1*R2*C1*C2)` where
`correctedNum = max 0 (|ad-bc| - n/2)` under Yates correction and
`|ad-bc|` otherwise.  Cell counts are embedded as rationals. -/
def chiSquareStat (a b c d : ℚ) (yates : Bool) : Option ℚ :=
  let n := a + b + c + d
  if a + b = 0 ∨ c + d = 0 ∨ a + c = 0 ∨ b + d = 0 then none
  else
    let numerator := |a * d - b * c|
    let correctedNum := if yates then max 0 (numerator - n / 2) else numerator
    some (n * correctedNum ^ 2 / ((a + b) * (c + d) * (a + c) * (b + d)))

/-- Chi-square formula exactly as the spec states it:
`χ² = n(|ad-bc| - c)² / (R1 R2 C1 C2)` with `c = n/2` if corrected else 0
(no clamping of the corrected numerator). -/
def chiSquareSpecFormula (a b c d : ℚ) (yates : Bool) : ℚ :=
  let n := a + b + c + d
  let cc := if yates then n / 2 else 0
  n * (|a * d - b * c| - cc) ^ 2 / ((a + b) * (c + d) * (a + c) * (b + d))

/-! ### Standardized ratio (`standardizedRates.compute`) -/

/-- Standardized ratio `observed / expected`. -/
noncomputable def smrValue (o : ℕ) (e : ℝ) : ℝ := (o : ℝ) / e

/-- Lower Byar bound of `standardizedRates.compute` (`zCrit = 1.96` fixed;
0 when `observed = 0`). -/
noncomputable def smrLower (o : ℕ) (e : ℝ) : ℝ :=
  if o = 0 then 0
  else ((o : ℝ) *
    (1 - 1 / (9 * (o : ℝ)) - 1.96 / (3 * Real.sqrt o)) ^ (3 : ℕ)) / e

/-- Upper Byar bound of `standardizedRates.compute`. -/
noncomputable def smrUpper (o : ℕ) (e : ℝ) : ℝ :=
  (((o : ℝ) + 1) *
    (1 - 1 / (9 * ((o : ℝ) + 1)) + 1.96 / (3 * Real.sqrt ((o : ℝ) + 1))) ^ (3 : ℕ)) / e

/-! ### Sample-size solvers (`sampleSizeTwoProps`, `sampleSizeNonInferiority`) -/

/-- Real-valued closed form inside `Math.ceil` for `n1` of
`sampleSizeTwoProps.compute` (`r` is the allocation `n2/n1`). -/
noncomputable def twoPropN1Value (p1 p2 power alpha r : ℝ) : ℝ :=
  let pAvg := (p1 + r * p2) / (1 + r)
  let zAlpha := getZCritical ((1 - alpha) * 100)
  let zPower := getZCritical ((power * 2 - 1) * 100)
  (zAlpha * Real.sqrt ((1 + 1 / r) * pAvg * (1 - pAvg)) +
      zPower * Real.sqrt (p1 * (1 - p1) + p2 * (1 - p2) / r)) ^ (2 : ℕ) /
    (p1 - p2) ^ (2 : ℕ)

/-- `n1` of `sampleSizeTwoProps.compute`. -/
noncomputable def twoPropN1 (p1 p2 power alpha r : ℝ) : ℤ :=
  ⌈twoPropN1Value p1 p2 power alpha r⌉

/-- `n2` of `sampleSizeTwoProps.compute`. -/
noncomputable def twoPropN2 (p1 p2 power alpha r : ℝ) : ℤ :=
  ⌈((twoPropN1 p1 p2 power alpha r : ℝ) * r)⌉

/-- `zAlpha` of `sampleSizeNonInferiority.compute`
(`getZCritical((1 - alpha*2) * 100)`). -/
noncomputable def nonInfZAlpha (alpha : ℝ) : ℝ :=
  getZCritical ((1 - alpha * 2) * 100)

/-- `numerator` of `calculateN` in `sampleSizeNonInferiority.compute`. -/
noncomputable def nonInfNumerator (pStandard pTest power alpha : ℝ) : ℝ :=
  (nonInfZAlpha alpha + getZCritical ((power * 2 - 1) * 100)) ^ (2 : ℕ) *
    (pStandard * (1 - pStandard) + pTest * (1 - pTest))

/-- `denominator` of `calculateN` in `sampleSizeNonInferiority.compute`:
`(pTest - pStandard - margin)²`, with no guard against it being zero. -/
noncomputable def nonInfDenominator (pStandard pTest margin : ℝ) : ℝ :=
  (pTest - pStandard - margin) ^ (2 : ℕ)

/-- Per-arm `n` of `sampleSizeNonInferiority.compute`. -/
noncomputable def nonInfN (pStandard pTest margin power alpha : ℝ) : ℤ :=
  ⌈nonInfNumerator pStandard pTest power alpha /
      nonInfDenominator pStandard pTest margin⌉

/-- Round trip of the chi-square approximations:
`chiSqPValue(chiSqCritical(p, df), df)`. -/
noncomputable def chiSqRoundTrip (p df : ℝ) : ℝ :=
  getChiSqPValue (getChiSqCritical p df) df

/-! ### Rational bounds for the probit approximation at the confidence
levels the claims use -/

lemma zDen_pos {t : ℝ} (h : 0 ≤ t) : 0 < zDen t := by
  unfold zDen; nlinarith [mul_nonneg h h, mul_nonneg (mul_nonneg h h) h]

lemma zNum_nonneg {t : ℝ} (h : 0 ≤ t) : 0 ≤ zNum t := by
  unfold zNum; nlinarith [mul_nonneg h h]

lemma zNum_mono {s t : ℝ} (h0 : 0 ≤ s) (hst : s ≤ t) : zNum s ≤ zNum t := by
  unfold zNum
  have h1 : 0 ≤ t - s := by linarith
  have h2 : 0 ≤ t + s := by linarith
  nlinarith [mul_nonneg h1 h2]

lemma zDen_mono {s t : ℝ} (h0 : 0 ≤ s) (hst : s ≤ t) : zDen s ≤ zDen t := by
  unfold zDen
  have h1 : 0 ≤ t - s := by linarith
  have h2 : 0 ≤ t + s := by linarith
  have h3 : 0 ≤ t * t + t * s + s * s := by nlinarith [sq_nonneg (t + s)]
  nlinarith [mul_nonneg h1 h2, mul_nonneg h1 h3]

lemma getZCritical_eq (conf : ℝ) :
    getZCritical conf =
      Real.sqrt (-2 * Real.log ((1 - conf / 100) / 2)) -
        zNum (Real.sqrt (-2 * Real.log ((1 - conf / 100) / 2))) /
          zDen (Real.sqrt (-2 * Real.log ((1 - conf / 100) / 2))) := by
  have h : (1 : ℝ) - (1 - (1 - conf / 100) / 2) = (1 - conf / 100) / 2 := by ring
  simp only [getZCritical, h]

lemma getZCritical_bounds_aux (A t1 t2 zlo zhi : ℝ)
    (h01 : 0 ≤ t1) (h02 : 0 ≤ t2) (hA1 : t1 ^ 2 ≤ A) (hA2 : A ≤ t2 ^ 2)
    (hlo : zlo ≤ t1 - zNum t2 / zDen t1) (hhi : t2 - zNum t1 / zDen t2 ≤ zhi) :
    zlo ≤ Real.sqrt A - zNum (Real.sqrt A) / zDen (Real.sqrt A) ∧
      Real.sqrt A - zNum (Real.sqrt A) / zDen (Real.sqrt A) ≤ zhi := by
  have hA0 : 0 ≤ A := le_trans (sq_nonneg t1) hA1
  have ht1 : t1 ≤ Real.sqrt A := (Real.le_sqrt h01 hA0).mpr hA1
  have ht2 : Real.sqrt A ≤ t2 := by
    calc Real.sqrt A ≤ Real.sqrt (t2 ^ 2) := Real.sqrt_le_sqrt hA2
    _ = t2 := Real.sqrt_sq h02
  set t := Real.sqrt A with hts
  have h0t : 0 ≤ t := Real.sqrt_nonneg A
  have hdenpos : 0 < zDen t := zDen_pos h0t
  have hden1 : 0 < zDen t1 := zDen_pos h01
  have hnum_up : zNum t ≤ zNum t2 := zNum_mono h0t ht2
  have hnum_lo : zNum t1 ≤ zNum t := zNum_mono h01 ht1
  have hnum01 : 0 ≤ zNum t1 := zNum_nonneg h01
  have hnum02 : 0 ≤ zNum t2 := zNum_nonneg h02
  have hden_up : zDen t ≤ zDen t2 := zDen_mono h0t ht2
  have hden_lo : zDen t1 ≤ zDen t := zDen_mono h01 ht1
  constructor
  · have h := div_le_div₀ hnum02 hnum_up hden1 hden_lo
    linarith
  · have h := div_le_div₀ (le_trans hnum01 hnum_lo) hnum_lo hdenpos hden_up
    linarith

lemma exp_lt_of_sum_bound : Real.exp 0.223143 < 5 / 4 := by
  have h := @Real.exp_bound' 0.223143 (by norm_num) (by norm_num) 6 (by norm_num)
  refine lt_of_le_of_lt h ?_
  simp only [Finset.sum_range_succ, Finset.sum_range_zero]
  norm_num [Nat.factorial]

lemma lt_exp_of_sum_bound : (5 / 4 : ℝ) < Real.exp 0.223144 := by
  have h := Real.sum_le_exp_of_nonneg (by norm_num : (0 : ℝ) ≤ 0.223144) 6
  refine lt_of_lt_of_le ?_ h
  simp only [Finset.sum_range_succ, Finset.sum_range_zero]
  norm_num [Nat.factorial]

lemma log54_lo : (0.223143 : ℝ) < Real.log (5 / 4) :=
  (Real.lt_log_iff_exp_lt (by norm_num)).mpr exp_lt_of_sum_bound

lemma log54_hi : Real.log (5 / 4) < 0.223144 :=
  (Real.log_lt_iff_lt_exp (by norm_num)).mpr lt_exp_of_sum_bound

lemma exp_lt_of_sum_bound' : Real.exp 0.0253175 < 40 / 39 := by
  have h := @Real.exp_bound' 0.0253175 (by norm_num) (by norm_num) 4 (by norm_num)
  refine lt_of_le_of_lt h ?_
  simp only [Finset.sum_range_succ, Finset.sum_range_zero]
  norm_num [Nat.factorial]

lemma lt_exp_of_sum_bound' : (40 / 39 : ℝ) < Real.exp 0.0253182 := by
  have h := Real.sum_le_exp_of_nonneg (by norm_num : (0 : ℝ) ≤ 0.0253182) 4
  refine lt_of_lt_of_le ?_ h
  simp only [Finset.sum_range_succ, Finset.sum_range_zero]
  norm_num [Nat.factorial]

lemma log4039_lo : (0.0253175 : ℝ) < Real.log (40 / 39) :=
  (Real.lt_log_iff_exp_lt (by norm_num)).mpr exp_lt_of_sum_bound'

lemma log4039_hi : Real.log (40 / 39) < 0.0253182 :=
  (Real.log_lt_iff_lt_exp (by norm_num)).mpr lt_exp_of_sum_bound'

lemma z50_bounds : 0.674189 ≤ getZCritical 50 ∧ getZCritical 50 ≤ 0.674190 := by
  rw [getZCritical_eq]
  rw [show -2 * Real.log ((1 - (50 : ℝ) / 100) / 2) = 4 * Real.log 2 by
    rw [show ((1 : ℝ) - 50 / 100) / 2 = ((2 : ℝ) ^ (2 : ℕ))⁻¹ by norm_num,
      Real.log_inv, Real.log_pow]
    push_cast; ring]
  exact getZCritical_bounds_aux _ 1.6651092 1.6651093 _ _ (by norm_num) (by norm_num)
    (by nlinarith [Real.log_two_gt_d9]) (by nlinarith [Real.log_two_lt_d9])
    (by norm_num [zNum, zDen]) (by norm_num [zNum, zDen])

lemma z60_bounds : 0.841456 ≤ getZCritical 60 ∧ getZCritical 60 ≤ 0.841458 := by
  rw [getZCritical_eq]
  rw [show -2 * Real.log ((1 - (60 : ℝ) / 100) / 2) =
      2 * (2 * Real.log 2 + Real.log (5 / 4)) by
    rw [show ((1 : ℝ) - 60 / 100) / 2 = ((2 : ℝ) ^ (2 : ℕ) * (5 / 4))⁻¹ by norm_num,
      Real.log_inv, Real.log_mul (by norm_num) (by norm_num), Real.log_pow]
    push_cast; ring]
  exact getZCritical_bounds_aux _ 1.7941222 1.7941229 _ _ (by norm_num) (by norm_num)
    (by nlinarith [Real.log_two_gt_d9, log54_lo])
    (by nlinarith [Real.log_two_lt_d9, log54_hi])
    (by norm_num [zNum, zDen]) (by norm_num [zNum, zDen])

lemma z95_bounds : 1.960394 ≤ getZCritical 95 ∧ getZCritical 95 ≤ 1.960396 := by
  rw [getZCritical_eq]
  rw [show -2 * Real.log ((1 - (95 : ℝ) / 100) / 2) =
      2 * (5 * Real.log 2 + Real.log (5 / 4)) by
    rw [show ((1 : ℝ) - 95 / 100) / 2 = ((2 : ℝ) ^ (5 : ℕ) * (5 / 4))⁻¹ by norm_num,
      Real.log_inv, Real.log_mul (by norm_num) (by norm_num), Real.log_pow]
    push_cast; ring]
  exact getZCritical_bounds_aux _ 2.7162028 2.7162032 _ _ (by norm_num) (by norm_num)
    (by nlinarith [Real.log_two_gt_d9, log54_lo])
    (by nlinarith [Real.log_two_lt_d9, log54_hi])
    (by norm_num [zNum, zDen]) (by norm_num [zNum, zDen])

lemma z975_bounds : 2.241844 ≤ getZCritical 97.5 ∧ getZCritical 97.5 ≤ 2.241846 := by
  rw [getZCritical_eq]
  rw [show -2 * Real.log ((1 - (97.5 : ℝ) / 100) / 2) =
      2 * (6 * Real.log 2 + Real.log (5 / 4)) by
    rw [show ((1 : ℝ) - 97.5 / 100) / 2 = ((2 : ℝ) ^ (6 : ℕ) * (5 / 4))⁻¹ by norm_num,
      Real.log_inv, Real.log_mul (by norm_num) (by norm_num), Real.log_pow]
    push_cast; ring]
  exact getZCritical_bounds_aux _ 2.9604141 2.9604146 _ _ (by norm_num) (by norm_num)
    (by nlinarith [Real.log_two_gt_d9, log54_lo])
    (by nlinarith [Real.log_two_lt_d9, log54_hi])
    (by norm_num [zNum, zDen]) (by norm_num [zNum, zDen])

lemma z25_bounds : 0.03125 ≤ getZCritical 2.5 ∧ getZCritical 2.5 ≤ 0.031252 := by
  rw [getZCritical_eq]
  rw [show -2 * Real.log ((1 - (2.5 : ℝ) / 100) / 2) =
      2 * (Real.log 2 + Real.log (40 / 39)) by
    rw [show ((1 : ℝ) - 2.5 / 100) / 2 = ((2 : ℝ) * (40 / 39))⁻¹ by norm_num,
      Real.log_inv, Real.log_mul (by norm_num) (by norm_num)]
    ring]
  exact getZCritical_bounds_aux _ 1.1987198 1.1987205 _ _ (by norm_num) (by norm_num)
    (by nlinarith [Real.log_two_gt_d9, log4039_lo])
    (by nlinarith [Real.log_two_lt_d9, log4039_hi])
    (by norm_num [zNum, zDen]) (by norm_num [zNum, zDen])

lemma sqrt_bounds_aux (A lo hi : ℝ) (h0 : 0 ≤ lo) (h1 : lo ^ 2 ≤ A)
    (h2 : A ≤ hi ^ 2) (h3 : 0 ≤ hi) :
    lo ≤ Real.sqrt A ∧ Real.sqrt A ≤ hi :=
  ⟨(Real.le_sqrt h0 (le_trans (sq_nonneg lo) h1)).mpr h1,
   le_trans (Real.sqrt_le_sqrt h2) (le_of_eq (Real.sqrt_sq h3))⟩

lemma poissonExactLower_bounds_5_1000_95 :
    0.0112 < poissonExactLower 5 1000 95 ∧ poissonExactLower 5 1000 95 < 0.0113 := by
  unfold poissonExactLower
  rw [if_neg (by norm_num)]
  unfold getChiSqCritical
  rw [if_neg (by push_cast; norm_num)]
  rw [show ((1 : ℝ) - (1 - (95 : ℝ) / 100) / 2) * 100 = 97.5 by norm_num,
    show (2 : ℝ) / (9 * (2 * ((5 : ℕ) : ℝ))) = 1 / 45 by push_cast; norm_num]
  obtain ⟨hz1, hz2⟩ := z975_bounds
  obtain ⟨hs1, hs2⟩ := sqrt_bounds_aux (1 / 45) 0.149071 0.149072
    (by norm_num) (by norm_num) (by norm_num) (by norm_num)
  set z := getZCritical 97.5
  set s := Real.sqrt (1 / 45)
  have hil : (1.31197 : ℝ) ≤ 1 - 2 / (9 * (2 * ((5 : ℕ) : ℝ))) + z * s := by
    push_cast; nlinarith
  have hih : 1 - 2 / (9 * (2 * ((5 : ℕ) : ℝ))) + z * s ≤ 1.31198 := by
    push_cast; nlinarith
  have hcl : (1.31197 : ℝ) ^ 3 ≤ (1 - 2 / (9 * (2 * ((5 : ℕ) : ℝ))) + z * s) ^ 3 :=
    pow_le_pow_left₀ (by norm_num) hil 3
  have hch : (1 - 2 / (9 * (2 * ((5 : ℕ) : ℝ))) + z * s) ^ 3 ≤ (1.31198 : ℝ) ^ 3 :=
    pow_le_pow_left₀ (by positivity) hih 3
  constructor
  · push_cast at hcl ⊢; nlinarith
  · push_cast at hch ⊢; nlinarith

lemma poissonExactUpper_bounds_5_1000_95 :
    0.0057 < poissonExactUpper 5 1000 95 ∧ poissonExactUpper 5 1000 95 < 0.0058 := by
  unfold poissonExactUpper
  unfold getChiSqCritical
  rw [if_neg (by push_cast; norm_num)]
  rw [show ((1 : ℝ) - (1 - (1 - (95 : ℝ) / 100) / 2)) * 100 = 2.5 by norm_num,
    show (2 : ℝ) / (9 * (2 * (((5 : ℕ) : ℝ) + 1))) = 1 / 54 by push_cast; norm_num]
  obtain ⟨hz1, hz2⟩ := z25_bounds
  obtain ⟨hs1, hs2⟩ := sqrt_bounds_aux (1 / 54) 0.136082 0.136083
    (by norm_num) (by norm_num) (by norm_num) (by norm_num)
  set z := getZCritical 2.5
  set s := Real.sqrt (1 / 54)
  have hil : (0.98573 : ℝ) ≤ 1 - 2 / (9 * (2 * (((5 : ℕ) : ℝ) + 1))) + z * s := by
    push_cast; nlinarith
  have hih : 1 - 2 / (9 * (2 * (((5 : ℕ) : ℝ) + 1))) + z * s ≤ 0.98574 := by
    push_cast; nlinarith
  have hcl : (0.98573 : ℝ) ^ 3 ≤ (1 - 2 / (9 * (2 * (((5 : ℕ) : ℝ) + 1))) + z * s) ^ 3 :=
    pow_le_pow_left₀ (by norm_num) hil 3
  have hch : (1 - 2 / (9 * (2 * (((5 : ℕ) : ℝ) + 1))) + z * s) ^ 3 ≤ (0.98574 : ℝ) ^ 3 :=
    pow_le_pow_left₀ (by positivity) hih 3
  constructor
  · push_cast at hcl ⊢; nlinarith
  · push_cast at hch ⊢; nlinarith

lemma poissonRate_5_1000 : poissonRate 5 1000 = 0.005 := by
  unfold poissonRate; push_cast; norm_num

/-! ### Claims C2, C3 (counterexample part), C4, C5, C9, C10 -/

/-- C2: at `k = 5`, `T = 1000`, 95% confidence, the code reports the observed
rate 0.005 as the claim states, but its "exact" Poisson bounds are
`lower ≈ 0.0113` and `upper ≈ 0.0057` — far from the claimed `≈ 0.00162`
and `≈ 0.01167` (tolerance 1e-3), and inverted (`upper < lower`):
`getChiSqCritical` feeds its argument through the two-sided `getZCritical`,
so it does not return the chi-square quantile its formula string documents. -/
theorem c2_code_evaluation :
    poissonRate 5 1000 = 0.005 ∧
      0.0112 < poissonExactLower 5 1000 95 ∧
      poissonExactUpper 5 1000 95 < 0.0058 ∧
      poissonExactUpper 5 1000 95 < poissonExactLower 5 1000 95 := by
  refine ⟨poissonRate_5_1000, poissonExactLower_bounds_5_1000_95.1,
    poissonExactUpper_bounds_5_1000_95.2, ?_⟩
  have h1 := poissonExactLower_bounds_5_1000_95.1
  have h2 := poissonExactUpper_bounds_5_1000_95.2
  linarith

/-- C3, counterexample: the exact Poisson interval at `k = 5`, `T = 1000`,
95% confidence has all components finite yet violates
`lower ≤ value ≤ upper` (its lower bound ≈ 0.0113 exceeds the value 0.005). -/
theorem c3_counterexample :
    ¬ (poissonExactLower 5 1000 95 ≤ poissonRate 5 1000 ∧
        poissonRate 5 1000 ≤ poissonExactUpper 5 1000 95) := by
  intro h
  have h1 := poissonExactLower_bounds_5_1000_95.1
  have h2 := poissonRate_5_1000
  rw [h2] at h
  linarith [h.1]

/-- C4, counterexample: on the table `{a=0, b=1, c=1, d=1}` (which has a zero
cell) the risk-ratio point estimate returned by `computeRR` is `0.5`, computed
from the 0.5-corrected table, not the uncorrected point estimate
`(0/1)/(1/2) = 0` required by the claim. -/
theorem c4_counterexample :
    (computeRR ⟨0, 1, 1, 1⟩ 95).value ≠ pointRiskRatio ⟨0, 1, 1, 1⟩ := by
  have h1 : (computeRR ⟨0, 1, 1, 1⟩ 95).value = 1 / 2 := by
    norm_num [computeRR, applyContinuityCorrection]
  have h2 : pointRiskRatio ⟨0, 1, 1, 1⟩ = 0 := by
    norm_num [pointRiskRatio]
  rw [h1, h2]; norm_num

/-- C4, amended: for a table with a zero cell the Haldane–Anscombe correction
is applied to the *whole* risk-ratio and odds-ratio computation — the point
estimates as well as the variance terms come from the corrected table — while
risk-difference computations use the uncorrected table throughout. -/
theorem c4_amended (tb : Table2x2) (conf : ℝ)
    (_hz : tb.a = 0 ∨ tb.b = 0 ∨ tb.c = 0 ∨ tb.d = 0) :
    (computeRR tb conf).value = pointRiskRatio (applyContinuityCorrection tb) ∧
      (computeOR tb conf).value = pointOddsRatio (applyContinuityCorrection tb) ∧
      (computeRD tb conf).value = pointRiskDifference tb := by
  refine ⟨?_, ?_, ?_⟩
  · simp [computeRR, pointRiskRatio]
  · simp [computeOR, pointOddsRatio]
  · simp [computeRD, pointRiskDifference]

theorem c4_amended_witness :
    ((0 : ℝ) = 0 ∨ (1 : ℝ) = 0 ∨ (1 : ℝ) = 0 ∨ (1 : ℝ) = 0) ∧
      ((computeRR ⟨0, 1, 1, 1⟩ 95).value =
          pointRiskRatio (applyContinuityCorrection ⟨0, 1, 1, 1⟩) ∧
        (computeOR ⟨0, 1, 1, 1⟩ 95).value =
          pointOddsRatio (applyContinuityCorrection ⟨0, 1, 1, 1⟩) ∧
        (computeRD ⟨0, 1, 1, 1⟩ 95).value = pointRiskDifference ⟨0, 1, 1, 1⟩) :=
  ⟨Or.inl rfl, c4_amended ⟨0, 1, 1, 1⟩ 95 (Or.inl rfl)⟩

/-- C5: at `pStandard = 0.85`, `pTest = 0.95`, `margin = 0.1` the closed-form
denominator `(pTest - pStandard - margin)²` of the non-inferiority solver is
exactly 0 while its numerator is positive; the code divides anyway (there is
no guard and no error path in `compute`), so no caller-visible rejection
occurs — in JavaScript the result is `Infinity`, not an error. -/
theorem c5_zero_denominator :
    nonInfDenominator 0.85 0.95 0.1 = 0 ∧
      0 < nonInfNumerator 0.85 0.95 0.8 0.025 := by
  constructor
  · norm_num [nonInfDenominator]
  · unfold nonInfNumerator nonInfZAlpha
    rw [show ((1 : ℝ) - 0.025 * 2) * 100 = 95 by norm_num,
      show ((0.8 : ℝ) * 2 - 1) * 100 = 60 by norm_num]
    have hz1 := z95_bounds.1
    have hz2 := z60_bounds.1
    have hsum : (0 : ℝ) < getZCritical 95 + getZCritical 60 := by linarith
    have hsq := pow_pos hsum 2
    nlinarith

/-- C9, counterexample: on the all-ones table with Yates correction the code
returns χ² = 0 (the corrected numerator `|ad-bc| - n/2` is clamped at 0),
while the claim's unclamped formula `n(|ad-bc| - n/2)²/(R1 R2 C1 C2)`
evaluates to 1. -/
theorem c9_counterexample :
    chiSquareStat 1 1 1 1 true ≠ some (chiSquareSpecFormula 1 1 1 1 true) := by
  have h1 : chiSquareStat 1 1 1 1 true = some 0 := by
    norm_num [chiSquareStat]
  have h2 : chiSquareSpecFormula 1 1 1 1 true = 1 := by
    norm_num [chiSquareSpecFormula]
  rw [h1, h2]
  simp

/-- C9, amended: for tables with positive marginal totals the statistic is
`n * (max 0 (|ad-bc| - c))² / (R1 R2 C1 C2)` where `c = n/2` under the Yates
correction and `c = 0` otherwise — i.e. the spec formula with the corrected
numerator clamped below at 0 (the clamp only matters in the Yates case). -/
theorem c9_amended (a b c d : ℚ) (yates : Bool)
    (h1 : 0 < a + b) (h2 : 0 < c + d) (h3 : 0 < a + c) (h4 : 0 < b + d) :
    chiSquareStat a b c d yates =
      some ((a + b + c + d) *
          (max 0 (|a * d - b * c| - (if yates then (a + b + c + d) / 2 else 0))) ^ 2 /
        ((a + b) * (c + d) * (a + c) * (b + d))) := by
  unfold chiSquareStat
  rw [if_neg (by push_neg; exact ⟨h1.ne', h2.ne', h3.ne', h4.ne'⟩)]
  cases yates
  · simp only [Bool.false_eq_true, if_false, sub_zero]
    rw [max_eq_right (abs_nonneg _)]
  · simp only [if_true]

theorem c9_amended_witness :
    ((0 : ℚ) < 1 + 1) ∧
      chiSquareStat 1 1 1 1 true =
        some ((1 + 1 + 1 + 1) *
            (max 0 (|1 * 1 - 1 * 1| - (if true then ((1 : ℚ) + 1 + 1 + 1) / 2 else 0))) ^ 2 /
          ((1 + 1) * (1 + 1) * (1 + 1) * (1 + 1))) :=
  ⟨by norm_num,
    c9_amended 1 1 1 1 true (by norm_num) (by norm_num) (by norm_num) (by norm_num)⟩

/-- C10: with `k = 0` events, 95% confidence and any positive person-time,
the Byar lower bound is strictly negative (the Byar interval is not truncated
at zero), while the exact method's lower bound at `k = 0` is 0. -/
theorem c10_byar_lower_negative (T : ℝ) (hT : 0 < T) :
    poissonByarLower 0 T 95 < 0 ∧ poissonExactLower 0 T 95 = 0 := by
  refine ⟨?_, by unfold poissonExactLower; simp⟩
  unfold poissonByarLower byarTerm
  have harg : (1 : ℝ) / (((0 : ℕ) : ℝ) + 0.5) = 2 := by push_cast; norm_num
  rw [harg]
  have hs : (1.4142135 : ℝ) ≤ Real.sqrt 2 :=
    (sqrt_bounds_aux 2 1.4142135 1.5
      (by norm_num) (by norm_num) (by norm_num) (by norm_num)).1
  have hs2 : Real.sqrt 2 ≤ 1.5 :=
    (sqrt_bounds_aux 2 1.4142135 1.5
      (by norm_num) (by norm_num) (by norm_num) (by norm_num)).2
  have hz1 := z95_bounds.1
  have hz2 := z95_bounds.2
  have hbase : 1 - 1 / (9 * (((0 : ℕ) : ℝ) + 0.5)) -
      getZCritical 95 / 3 * Real.sqrt 2 < 0 := by
    push_cast
    nlinarith
  have hcube : (1 - 1 / (9 * (((0 : ℕ) : ℝ) + 0.5)) -
      getZCritical 95 / 3 * Real.sqrt 2) ^ (3 : ℕ) < 0 :=
    Odd.pow_neg (by decide) hbase
  have hmul : (((0 : ℕ) : ℝ) + 0.5) *
      (1 - 1 / (9 * (((0 : ℕ) : ℝ) + 0.5)) -
        getZCritical 95 / 3 * Real.sqrt 2) ^ (3 : ℕ) < 0 :=
    mul_neg_of_pos_of_neg (by push_cast; norm_num) hcube
  exact div_neg_of_neg_of_pos hmul hT

theorem c10_witness :
    (0 : ℝ) < 1000 ∧
      (poissonByarLower 0 1000 95 < 0 ∧ poissonExactLower 0 1000 95 = 0) :=
  ⟨by norm_num, c10_byar_lower_negative 1000 (by norm_num)⟩

/-! ### Claim C6: two-proportion sample size at the spec's scenario C -/

lemma twoPropN1Value_bounds :
    93.01 < twoPropN1Value 0.3 0.5 0.8 0.05 1 ∧
      twoPropN1Value 0.3 0.5 0.8 0.05 1 < 93.02 := by
  have e1 : ((1 : ℝ) - 0.05) * 100 = 95 := by norm_num
  have e2 : ((0.8 : ℝ) * 2 - 1) * 100 = 60 := by norm_num
  have e3 : ((1 : ℝ) + 1 / 1) * (((0.3 : ℝ) + 1 * 0.5) / (1 + 1)) *
      (1 - ((0.3 : ℝ) + 1 * 0.5) / (1 + 1)) = 0.48 := by norm_num
  have e4 : (0.3 : ℝ) * (1 - 0.3) + 0.5 * (1 - 0.5) / 1 = 0.46 := by norm_num
  have e5 : ((0.3 : ℝ) - 0.5) ^ (2 : ℕ) = 0.04 := by norm_num
  simp only [twoPropN1Value, e1, e2, e3, e4, e5]
  obtain ⟨hz95l, hz95h⟩ := z95_bounds
  obtain ⟨hz60l, hz60h⟩ := z60_bounds
  obtain ⟨hs48l, hs48h⟩ := sqrt_bounds_aux 0.48 0.692820 0.692821
    (by norm_num) (by norm_num) (by norm_num) (by norm_num)
  obtain ⟨hs46l, hs46h⟩ := sqrt_bounds_aux 0.46 0.678232 0.678233
    (by norm_num) (by norm_num) (by norm_num) (by norm_num)
  set a := getZCritical 95
  set b := getZCritical 60
  set s := Real.sqrt 0.48
  set t := Real.sqrt 0.46
  have h1 : (1.960394 : ℝ) * 0.692820 ≤ a * s :=
    mul_le_mul hz95l hs48l (by norm_num) (by linarith)
  have h2 : (0.841456 : ℝ) * 0.678232 ≤ b * t :=
    mul_le_mul hz60l hs46l (by norm_num) (by linarith)
  have h3 : a * s ≤ 1.960396 * 0.692821 :=
    mul_le_mul hz95h hs48h (by positivity) (by norm_num)
  have h4 : b * t ≤ 0.841458 * 0.678233 :=
    mul_le_mul hz60h hs46h (by positivity) (by norm_num)
  have hSlo : (1.9289025 : ℝ) ≤ a * s + b * t := by nlinarith
  have hShi : a * s + b * t ≤ 1.9289087 := by nlinarith
  have hq : (a * s + b * t) ^ (2 : ℕ) / (0.04 : ℝ) = 25 * (a * s + b * t) ^ 2 := by
    ring
  rw [hq]
  have hsq_lo : (1.9289025 : ℝ) ^ 2 ≤ (a * s + b * t) ^ 2 :=
    pow_le_pow_left₀ (by norm_num) hSlo 2
  have hsq_hi : (a * s + b * t) ^ 2 ≤ (1.9289087 : ℝ) ^ 2 :=
    pow_le_pow_left₀ (by positivity) hShi 2
  constructor <;> nlinarith

lemma twoPropN1_eq_94 : twoPropN1 0.3 0.5 0.8 0.05 1 = 94 := by
  unfold twoPropN1
  rw [Int.ceil_eq_iff]
  obtain ⟨h1, h2⟩ := twoPropN1Value_bounds
  constructor
  · push_cast; linarith
  · push_cast; linarith

/-- C6, counterexample: at `p1 = 0.3`, `p2 = 0.5`, power 0.8, `alpha = 0.05`,
allocation 1, the solver does not return 93: the closed-form value is
≈ 93.017 (the probit approximation error pushes it just above 93), so the
ceiling is 94. -/
theorem c6_counterexample : twoPropN1 0.3 0.5 0.8 0.05 1 ≠ 93 := by
  rw [twoPropN1_eq_94]; decide

/-- C6, amended: at `p1 = 0.3`, `p2 = 0.5`, power 0.8, `alpha = 0.05`,
allocation 1, the solver returns `n1 = n2 = 94`, obtained as the ceiling of
the closed-form formula (whose value lies in (93.01, 93.02)). -/
theorem c6_amended :
    twoPropN1 0.3 0.5 0.8 0.05 1 = 94 ∧ twoPropN2 0.3 0.5 0.8 0.05 1 = 94 := by
  refine ⟨twoPropN1_eq_94, ?_⟩
  unfold twoPropN2
  rw [twoPropN1_eq_94]
  rw [show ((94 : ℤ) : ℝ) * 1 = ((94 : ℤ) : ℝ) by ring]
  exact Int.ceil_intCast 94

/-! ### Claim C1: the chi-square round trip -/

lemma roundTrip_half_one :
    chiSqRoundTrip (1 / 2) 1 = 1 - getNormalCDF (getZCritical 50) := by
  unfold chiSqRoundTrip getChiSqCritical
  rw [if_neg (by norm_num : ¬(1 : ℝ) ≤ 0)]
  rw [show ((1 : ℝ) - 1 / 2) * 100 = 50 by norm_num]
  set z := getZCritical 50 with hzdef
  have hz1 := z50_bounds.1
  have hspos : (0 : ℝ) < Real.sqrt (2 / (9 * 1)) := Real.sqrt_pos.mpr (by norm_num)
  set s := Real.sqrt (2 / (9 * (1 : ℝ))) with hsdef
  have hinner_pos : (0 : ℝ) < 1 - 2 / (9 * (1 : ℝ)) + z * s := by
    have : 0 < z * s := mul_pos (by linarith) hspos
    nlinarith
  unfold getChiSqPValue
  rw [if_neg (by push_neg; positivity)]
  have hpow : (((1 : ℝ) * (1 - 2 / (9 * (1 : ℝ)) + z * s) ^ (3 : ℕ)) / 1) ^ ((1 : ℝ) / 3) =
      1 - 2 / (9 * (1 : ℝ)) + z * s := by
    rw [div_one, one_mul,
      ← Real.rpow_natCast (1 - 2 / (9 * (1 : ℝ)) + z * s) 3,
      ← Real.rpow_mul hinner_pos.le]
    norm_num
  rw [hpow]
  have hfin : (1 - 2 / (9 * (1 : ℝ)) + z * s - (1 - 2 / (9 * (1 : ℝ)))) / s = z := by
    rw [show 1 - 2 / (9 * (1 : ℝ)) + z * s - (1 - 2 / (9 * (1 : ℝ))) = z * s by ring]
    exact mul_div_cancel_right₀ z (ne_of_gt hspos)
  show 1 - getNormalCDF ((1 - 2 / (9 * (1 : ℝ)) + z * s - (1 - 2 / (9 * (1 : ℝ)))) / s) =
    1 - getNormalCDF z
  rw [hfin]

lemma erf_eval_pos {x : ℝ} (hx : 0 < x) :
    erf x = 1 - erfPoly (1 / (1 + 0.3275911 * x)) * (1 / (1 + 0.3275911 * x)) *
      Real.exp (-(x * x)) := by
  unfold erf
  rw [if_neg (not_lt.mpr hx.le), abs_of_pos hx, one_mul]

lemma exp_neg_c1_hi : Real.exp (-0.2272638) ≤ 0.7967106 := by
  have h1 : (1.25516092 : ℝ) ≤ Real.exp 0.2272638 := by
    refine le_trans ?_ (Real.sum_le_exp_of_nonneg (by norm_num) 7)
    simp only [Finset.sum_range_succ, Finset.sum_range_zero]
    norm_num [Nat.factorial]
  calc Real.exp (-0.2272638) = (Real.exp 0.2272638)⁻¹ := Real.exp_neg 0.2272638
  _ ≤ (1.25516092 : ℝ)⁻¹ := inv_anti₀ (by norm_num) h1
  _ ≤ 0.7967106 := by norm_num

lemma exp_neg_c1_lo : (0.7967081 : ℝ) ≤ Real.exp (-0.2272668) := by
  have h1 : Real.exp 0.2272668 ≤ 1.2551648 := by
    have h := @Real.exp_bound' 0.2272668 (by norm_num) (by norm_num) 7 (by norm_num)
    refine le_trans h ?_
    simp only [Finset.sum_range_succ, Finset.sum_range_zero]
    norm_num [Nat.factorial]
  calc (0.7967081 : ℝ) ≤ (1.2551648 : ℝ)⁻¹ := by norm_num
  _ ≤ (Real.exp 0.2272668)⁻¹ := inv_anti₀ (Real.exp_pos _) h1
  _ = Real.exp (-0.2272668) := (Real.exp_neg 0.2272668).symm

set_option maxHeartbeats 1600000 in
lemma roundTrip_half_one_bounds :
    0.2500 < chiSqRoundTrip (1 / 2) 1 ∧ chiSqRoundTrip (1 / 2) 1 < 0.2502 := by
  rw [roundTrip_half_one]
  unfold getNormalCDF
  obtain ⟨hz1, hz2⟩ := z50_bounds
  obtain ⟨hs1, hs2⟩ := sqrt_bounds_aux 2 1.4142135 1.4142136
    (by norm_num) (by norm_num) (by norm_num) (by norm_num)
  have hs0 : (0 : ℝ) < Real.sqrt 2 := by linarith
  set x := getZCritical 50 / Real.sqrt 2 with hxdef
  have hx1 : (0.476722 : ℝ) ≤ x := by
    rw [hxdef, le_div_iff₀ hs0]; nlinarith
  have hx2 : x ≤ 0.476725 := by
    rw [hxdef, div_le_iff₀ hs0]; nlinarith
  have hx0 : 0 < x := lt_of_lt_of_le (by norm_num) hx1
  rw [erf_eval_pos hx0]
  have htpden : (0 : ℝ) < 1 + 0.3275911 * x := by nlinarith
  set tp := (1 : ℝ) / (1 + 0.3275911 * x) with htpdef
  have htp1 : (0.864923 : ℝ) ≤ tp := by
    rw [htpdef, le_div_iff₀ htpden]; nlinarith
  have htp2 : tp ≤ 0.864926 := by
    rw [htpdef, div_le_iff₀ htpden]; nlinarith
  have hP : (0.627815 : ℝ) ≤ erfPoly tp * tp ∧ erfPoly tp * tp ≤ 0.627828 := by
    unfold erfPoly
    have l1a : (-0.535119 : ℝ) ≤ 1.061405429 * tp + (-1.453152027) := by nlinarith
    have l1b : 1.061405429 * tp + (-1.453152027) ≤ -0.535114 := by nlinarith
    set e1 := 1.061405429 * tp + (-1.453152027) with he1
    have l2a : (0.958575 : ℝ) ≤ e1 * tp + 1.421413741 := by
      nlinarith [mul_nonneg (by linarith : (0 : ℝ) ≤ e1 + 0.535119)
          (by linarith : (0 : ℝ) ≤ tp),
        mul_nonneg (by norm_num : (0 : ℝ) ≤ (0.535119 : ℝ))
          (by linarith : (0 : ℝ) ≤ 0.864926 - tp)]
    have l2b : e1 * tp + 1.421413741 ≤ 0.958582 := by
      nlinarith [mul_nonneg (by linarith : (0 : ℝ) ≤ -0.535114 - e1)
          (by linarith : (0 : ℝ) ≤ tp),
        mul_nonneg (by norm_num : (0 : ℝ) ≤ (0.535114 : ℝ))
          (by linarith : (0 : ℝ) ≤ tp - 0.864923)]
    set e2 := e1 * tp + 1.421413741 with he2
    have l3a : (0.544596 : ℝ) ≤ e2 * tp + (-0.284496736) := by
      nlinarith [mul_nonneg (by linarith : (0 : ℝ) ≤ e2 - 0.958575)
          (by linarith : (0 : ℝ) ≤ tp),
        mul_nonneg (by norm_num : (0 : ℝ) ≤ (0.958575 : ℝ))
          (by linarith : (0 : ℝ) ≤ tp - 0.864923)]
    have l3b : e2 * tp + (-0.284496736) ≤ 0.544606 := by
      nlinarith [mul_nonneg (by linarith : (0 : ℝ) ≤ 0.958582 - e2)
          (by linarith : (0 : ℝ) ≤ tp),
        mul_nonneg (by norm_num : (0 : ℝ) ≤ (0.958582 : ℝ))
          (by linarith : (0 : ℝ) ≤ 0.864926 - tp)]
    set e3 := e2 * tp + (-0.284496736) with he3
    have l4a : (0.725863 : ℝ) ≤ e3 * tp + 0.254829592 := by
      nlinarith [mul_nonneg (by linarith : (0 : ℝ) ≤ e3 - 0.544596)
          (by linarith : (0 : ℝ) ≤ tp),
        mul_nonneg (by norm_num : (0 : ℝ) ≤ (0.544596 : ℝ))
          (by linarith : (0 : ℝ) ≤ tp - 0.864923)]
    have l4b : e3 * tp + 0.254829592 ≤ 0.725874 := by
      nlinarith [mul_nonneg (by linarith : (0 : ℝ) ≤ 0.544606 - e3)
          (by linarith : (0 : ℝ) ≤ tp),
        mul_nonneg (by norm_num : (0 : ℝ) ≤ (0.544606 : ℝ))
          (by linarith : (0 : ℝ) ≤ 0.864926 - tp)]
    set e4 := e3 * tp + 0.254829592 with he4
    constructor
    · nlinarith [mul_nonneg (by linarith : (0 : ℝ) ≤ e4 - 0.725863)
          (by linarith : (0 : ℝ) ≤ tp),
        mul_nonneg (by norm_num : (0 : ℝ) ≤ (0.725863 : ℝ))
          (by linarith : (0 : ℝ) ≤ tp - 0.864923)]
    · nlinarith [mul_nonneg (by linarith : (0 : ℝ) ≤ 0.725874 - e4)
          (by linarith : (0 : ℝ) ≤ tp),
        mul_nonneg (by norm_num : (0 : ℝ) ≤ (0.725874 : ℝ))
          (by linarith : (0 : ℝ) ≤ 0.864926 - tp)]
  have hq1 : (0.2272638 : ℝ) ≤ x * x := by nlinarith
  have hq2 : x * x ≤ 0.2272668 := by nlinarith
  have hE_hi : Real.exp (-(x * x)) ≤ 0.7967106 :=
    le_trans (Real.exp_le_exp.mpr (by linarith)) exp_neg_c1_hi
  have hE_lo : (0.7967081 : ℝ) ≤ Real.exp (-(x * x)) :=
    le_trans exp_neg_c1_lo (Real.exp_le_exp.mpr (by linarith))
  have hE0 : (0 : ℝ) < Real.exp (-(x * x)) := Real.exp_pos _
  have hPE1 : (0.627815 : ℝ) * 0.7967081 ≤ erfPoly tp * tp * Real.exp (-(x * x)) :=
    mul_le_mul hP.1 hE_lo (by norm_num) (by linarith [hP.1])
  have hPE2 : erfPoly tp * tp * Real.exp (-(x * x)) ≤ 0.627828 * 0.7967106 :=
    mul_le_mul hP.2 hE_hi hE0.le (by norm_num)
  constructor <;> nlinarith

/-- C1, counterexample: at `p = 1/2`, `df = 1` the round trip
`chiSqPValue(chiSqCritical(p, df), df)` lies near 0.25, hence differs from
`p = 0.5` by far more than the claimed 1e-2 tolerance. -/
theorem c1_counterexample :
    ¬ |chiSqRoundTrip (1 / 2) 1 - 1 / 2| ≤ 1 / 100 := by
  obtain ⟨h1, h2⟩ := roundTrip_half_one_bounds
  rw [abs_sub_comm, abs_of_pos (by linarith)]
  intro h
  linarith

/-- C1, amended: the composition recovers `p/2`, not `p`: the Wilson–Hilferty
transform cancels exactly, leaving `1 - normalCDF(zCritical((1-p)*100))`,
which is the upper-tail probability at the *two-sided* critical value, about
`p/2`.  In particular at `p = 1/2`, `df = 1` the round trip is within 1e-2
of `1/4`. -/
theorem c1_amended : |chiSqRoundTrip (1 / 2) 1 - 1 / 4| ≤ 1 / 100 := by
  obtain ⟨h1, h2⟩ := roundTrip_half_one_bounds
  rw [abs_of_pos (by linarith)]
  linarith

/-! ### Wilson containment, Clopper–Pearson range, and claim C8 -/

lemma getFCritical_pos (p d1 d2 : ℝ) : 0 < getFCritical p d1 d2 := by
  unfold getFCritical
  exact Real.exp_pos _

set_option maxHeartbeats 1600000 in
lemma wilson_contained (x n : ℕ) (conf : ℝ) (hn : 1 ≤ n) (hx : x ≤ n)
    (hz : 0 ≤ getZCritical conf) :
    0 ≤ wilsonLow x n conf ∧ wilsonLow x n conf ≤ propPhat x n ∧
      propPhat x n ≤ wilsonHigh x n conf ∧ wilsonHigh x n conf ≤ 1 := by
  simp only [wilsonLow, wilsonHigh]
  have hN : (0 : ℝ) < (n : ℝ) := by
    have : 0 < n := by omega
    exact_mod_cast this
  have hxn : (x : ℝ) ≤ (n : ℝ) := by exact_mod_cast hx
  set N := (n : ℝ) with hNdef
  set z := getZCritical conf with hzdef
  set p := propPhat x n with hpdef
  have hp0 : 0 ≤ p := by
    rw [hpdef]; unfold propPhat; positivity
  have hp1 : p ≤ 1 := by
    rw [hpdef]; unfold propPhat; rw [div_le_one hN]; exact hxn
  have harg0 : 0 ≤ p * (1 - p) / N + z * z / (4 * N * N) := by
    have h1 : 0 ≤ p * (1 - p) := mul_nonneg hp0 (by linarith)
    have h2 : 0 ≤ z * z := mul_nonneg hz hz
    have h3 : (0 : ℝ) < 4 * N * N := by positivity
    exact add_nonneg (div_nonneg h1 hN.le) (div_nonneg h2 h3.le)
  set S := Real.sqrt (p * (1 - p) / N + z * z / (4 * N * N)) with hSdef
  have hS0 : 0 ≤ S := Real.sqrt_nonneg _
  have hS2 : S ^ 2 = p * (1 - p) / N + z * z / (4 * N * N) := Real.sq_sqrt harg0
  have hden : (0 : ℝ) < 1 + z * z / N := by positivity
  have hzS0 : 0 ≤ z * S := mul_nonneg hz hS0
  have hSlow : z * z / (2 * N) ≤ z * S := by
    have he2 : (z / (2 * N)) ^ 2 = z * z / (4 * N * N) := by
      field_simp; ring
    have he : (z / (2 * N)) ^ 2 ≤ p * (1 - p) / N + z * z / (4 * N * N) := by
      rw [he2]
      have h1 : 0 ≤ p * (1 - p) / N := div_nonneg (mul_nonneg hp0 (by linarith)) hN.le
      linarith
    have hstep : z / (2 * N) ≤ S := by
      calc z / (2 * N) = Real.sqrt ((z / (2 * N)) ^ 2) := (Real.sqrt_sq (by positivity)).symm
      _ ≤ S := Real.sqrt_le_sqrt he
    calc z * z / (2 * N) = z * (z / (2 * N)) := by ring
    _ ≤ z * S := mul_le_mul_of_nonneg_left hstep hz
  have hcen0 : (0 : ℝ) ≤ p + z * z / (2 * N) := by positivity
  have hzz_p2 : 0 ≤ z * z * p ^ 2 / N :=
    div_nonneg (mul_nonneg (mul_nonneg hz hz) (sq_nonneg p)) hN.le
  have hsq1 : (z * S) ^ 2 ≤ (p + z * z / (2 * N)) ^ 2 := by
    have expand : (p + z * z / (2 * N)) ^ 2 - (z * S) ^ 2 = p ^ 2 + z * z * p ^ 2 / N := by
      rw [mul_pow, hS2]; field_simp; ring
    linarith [sq_nonneg p, hzz_p2]
  have hzS_le_cen : z * S ≤ p + z * z / (2 * N) :=
    le_of_pow_le_pow_left₀ two_ne_zero hcen0 hsq1
  have hexp : p * (1 + z * z / N) = p + p * (z * z / N) := by ring
  have hterm : 0 ≤ p * (z * z / N) :=
    mul_nonneg hp0 (div_nonneg (mul_nonneg hz hz) hN.le)
  have hhalf : z * z / (2 * N) + z * z / (2 * N) = z * z / N := by ring
  refine ⟨?_, ?_, ?_, ?_⟩
  · exact div_nonneg (by linarith) hden.le
  · rw [div_le_iff₀ hden, hexp]
    linarith [hSlow, hterm]
  · rw [le_div_iff₀ hden, hexp]
    rcases le_or_lt (p * (z * z / N) - z * z / (2 * N)) 0 with hc | hc
    · linarith [hzS0]
    · have hpq : 0 ≤ p * (1 - p) := mul_nonneg hp0 (by linarith)
      have hsq2 : (p * (z * z / N) - z * z / (2 * N)) ^ 2 ≤ (z * S) ^ 2 := by
        have expand2 : (z * S) ^ 2 - (p * (z * z / N) - z * z / (2 * N)) ^ 2 =
            z * z * (p * (1 - p)) / N + z * z * (z * z) * (p * (1 - p)) / (N * N) := by
          rw [mul_pow, hS2]; field_simp; ring
        have hterm1 : 0 ≤ z * z * (p * (1 - p)) / N :=
          div_nonneg (mul_nonneg (mul_nonneg hz hz) hpq) hN.le
        have hterm2 : 0 ≤ z * z * (z * z) * (p * (1 - p)) / (N * N) :=
          div_nonneg (mul_nonneg (mul_nonneg (mul_nonneg hz hz) (mul_nonneg hz hz)) hpq)
            (by positivity)
        linarith
      have ha : p * (z * z / N) - z * z / (2 * N) ≤ z * S :=
        le_of_pow_le_pow_left₀ two_ne_zero hzS0 hsq2
      linarith [ha]
  · rw [div_le_one hden]
    have hrhs0 : 0 ≤ (1 - p) + z * z / (2 * N) := by
      have : (0 : ℝ) ≤ z * z / (2 * N) := div_nonneg (mul_nonneg hz hz) (by positivity)
      linarith
    have hzz_q2 : 0 ≤ z * z * (1 - p) ^ 2 / N :=
      div_nonneg (mul_nonneg (mul_nonneg hz hz) (sq_nonneg (1 - p))) hN.le
    have hsq3 : (z * S) ^ 2 ≤ ((1 - p) + z * z / (2 * N)) ^ 2 := by
      have expand3 : ((1 - p) + z * z / (2 * N)) ^ 2 - (z * S) ^ 2 =
          (1 - p) ^ 2 + z * z * (1 - p) ^ 2 / N := by
        rw [mul_pow, hS2]; field_simp; ring
      nlinarith [sq_nonneg (1 - p)]
    have h := le_of_pow_le_pow_left₀ two_ne_zero hrhs0 hsq3
    linarith [h, hhalf]

lemma cp_in_unit (x n : ℕ) (conf : ℝ) (hn : 1 ≤ n) (hx : x ≤ n) :
    0 ≤ cpLow x n conf ∧ cpLow x n conf ≤ 1 ∧
      0 ≤ cpHigh x n conf ∧ cpHigh x n conf ≤ 1 := by
  have hN : (0 : ℝ) < (n : ℝ) := by
    have : 0 < n := by omega
    exact_mod_cast this
  refine ⟨?_, ?_, ?_, ?_⟩
  · unfold cpLow
    split
    · have hF := getFCritical_pos (1 - (1 - conf / 100) / 2)
        (2 * ((n : ℝ) - (x : ℝ) + 1)) (2 * (x : ℝ))
      have hxx : (0 : ℝ) < (x : ℝ) := by
        rename_i hxpos
        exact_mod_cast hxpos
      have hnx : (0 : ℝ) < (n : ℝ) - (x : ℝ) + 1 := by
        have : (x : ℝ) ≤ (n : ℝ) := by exact_mod_cast hx
        linarith
      positivity
    · norm_num
  · unfold cpLow
    split
    · have hF := getFCritical_pos (1 - (1 - conf / 100) / 2)
        (2 * ((n : ℝ) - (x : ℝ) + 1)) (2 * (x : ℝ))
      have hxx : (0 : ℝ) < (x : ℝ) := by
        rename_i hxpos
        exact_mod_cast hxpos
      have hnx : (0 : ℝ) < (n : ℝ) - (x : ℝ) + 1 := by
        have : (x : ℝ) ≤ (n : ℝ) := by exact_mod_cast hx
        linarith
      rw [div_le_one (by positivity)]
      nlinarith [mul_pos hnx hF]
    · norm_num
  · unfold cpHigh
    split
    · have hF := getFCritical_pos (1 - (1 - conf / 100) / 2)
        (2 * ((x : ℝ) + 1)) (2 * ((n : ℝ) - (x : ℝ)))
      have hnx : (0 : ℝ) < (n : ℝ) - (x : ℝ) := by
        rename_i hxlt
        have h1 : (x : ℝ) < (n : ℝ) := by exact_mod_cast hxlt
        linarith
      positivity
    · norm_num
  · unfold cpHigh
    split
    · have hF := getFCritical_pos (1 - (1 - conf / 100) / 2)
        (2 * ((x : ℝ) + 1)) (2 * ((n : ℝ) - (x : ℝ)))
      have hnx : (0 : ℝ) < (n : ℝ) - (x : ℝ) := by
        rename_i hxlt
        have h1 : (x : ℝ) < (n : ℝ) := by exact_mod_cast hxlt
        linarith
      have hx1 : (0 : ℝ) < (x : ℝ) + 1 := by positivity
      rw [div_le_one (by positivity)]
      nlinarith
    · norm_num

lemma fCrit_bound : getFCritical 0.975 4 198 < 1 / 2 := by
  simp only [getFCritical, lambdaF]
  rw [show (0.975 : ℝ) * 100 = 97.5 by norm_num]
  obtain ⟨hz1, hz2⟩ := z975_bounds
  set z := getZCritical 97.5 with hzdef
  have hh : (2 : ℝ) / (1 / 4 + 1 / 198) = 792 / 101 := by norm_num
  have hg : ((198 : ℝ) - 4) / (4 * 198) = 97 / 396 := by norm_num
  rw [hh, hg]
  have hzz1 : (5.02586 : ℝ) ≤ z * z := by nlinarith
  have hzz2 : z * z ≤ 5.02588 := by nlinarith
  have hsq : Real.sqrt (792 / 101 + (z * z - 3) / 6) ≤ 2.86 :=
    (sqrt_bounds_aux (792 / 101 + (z * z - 3) / 6) 0 2.86
      (by norm_num) (by nlinarith) (by nlinarith) (by norm_num)).2
  have hsqn : 0 ≤ Real.sqrt (792 / 101 + (z * z - 3) / 6) := Real.sqrt_nonneg _
  have hzs : z * Real.sqrt (792 / 101 + (z * z - 3) / 6) ≤ 2.241846 * 2.86 :=
    mul_le_mul hz2 hsq hsqn (by norm_num)
  have harg : 2 * (z * Real.sqrt (792 / 101 + (z * z - 3) / 6) / (792 / 101) -
      97 / 396 * (z * z + 2)) ≤ -1 := by
    have hdiv : z * Real.sqrt (792 / 101 + (z * z - 3) / 6) / (792 / 101) =
        z * Real.sqrt (792 / 101 + (z * z - 3) / 6) * (101 / 792) := by ring
    rw [hdiv]
    nlinarith [hzs, hzz1]
  calc Real.exp (2 * (z * Real.sqrt (792 / 101 + (z * z - 3) / 6) / (792 / 101) -
      97 / 396 * (z * z + 2)))
      ≤ Real.exp (-1) := Real.exp_le_exp.mpr harg
  _ < 1 / 2 := by
      rw [Real.exp_neg, show (1 / 2 : ℝ) = (2 : ℝ)⁻¹ by norm_num]
      have h2 : (2 : ℝ) < Real.exp 1 := lt_trans (by norm_num) Real.exp_one_gt_d9
      exact inv_strictAnti₀ (by norm_num) h2

lemma cpLow_violation : propPhat 99 100 < cpLow 99 100 95 := by
  unfold cpLow propPhat
  rw [if_pos (by norm_num : 0 < (99 : ℕ))]
  rw [show (1 : ℝ) - (1 - (95 : ℝ) / 100) / 2 = 0.975 by norm_num,
    show 2 * (((100 : ℕ) : ℝ) - ((99 : ℕ) : ℝ) + 1) = 4 by push_cast; norm_num,
    show 2 * ((99 : ℕ) : ℝ) = 198 by push_cast; norm_num,
    show ((100 : ℕ) : ℝ) - ((99 : ℕ) : ℝ) + 1 = 2 by push_cast; norm_num]
  have hF := fCrit_bound
  have hFpos := getFCritical_pos 0.975 4 198
  push_cast
  rw [div_lt_div_iff₀ (by norm_num) (by nlinarith)]
  nlinarith

/-- C8, counterexample: at `successes = 99`, `n = 100`, 95% confidence the
Clopper–Pearson lower bound (≈ 0.9967) exceeds the point estimate 0.99, so
`0 ≤ lower ≤ p̂` fails for the Clopper–Pearson interval: `getFCritical` is far
from the true F quantile at these degrees of freedom. -/
theorem c8_counterexample : ¬ (cpLow 99 100 95 ≤ propPhat 99 100) :=
  not_le.mpr cpLow_violation

/-- C8, amended: for every valid pair `(x, n)` with `0 ≤ x ≤ n`, `n ≥ 1`, and
a nonnegative normal critical value, the Wilson interval satisfies
`0 ≤ lower ≤ x/n ≤ upper ≤ 1`; the Clopper–Pearson bounds each lie in
`[0, 1]`, but the Clopper–Pearson interval need not contain `x/n` nor be at
least as wide as the Wilson interval. -/
theorem c8_amended (x n : ℕ) (conf : ℝ) (hn : 1 ≤ n) (hx : x ≤ n)
    (hz : 0 ≤ getZCritical conf) :
    (0 ≤ wilsonLow x n conf ∧ wilsonLow x n conf ≤ propPhat x n ∧
      propPhat x n ≤ wilsonHigh x n conf ∧ wilsonHigh x n conf ≤ 1) ∧
    (0 ≤ cpLow x n conf ∧ cpLow x n conf ≤ 1 ∧
      0 ≤ cpHigh x n conf ∧ cpHigh x n conf ≤ 1) :=
  ⟨wilson_contained x n conf hn hx hz, cp_in_unit x n conf hn hx⟩

theorem c8_amended_witness :
    ((1 : ℕ) ≤ 2 ∧ (1 : ℕ) ≤ 2 ∧ 0 ≤ getZCritical 95) ∧
    ((0 ≤ wilsonLow 1 2 95 ∧ wilsonLow 1 2 95 ≤ propPhat 1 2 ∧
        propPhat 1 2 ≤ wilsonHigh 1 2 95 ∧ wilsonHigh 1 2 95 ≤ 1) ∧
      (0 ≤ cpLow 1 2 95 ∧ cpLow 1 2 95 ≤ 1 ∧
        0 ≤ cpHigh 1 2 95 ∧ cpHigh 1 2 95 ≤ 1)) :=
  ⟨⟨by norm_num, by norm_num, le_trans (by norm_num) z95_bounds.1⟩,
    c8_amended 1 2 95 (by norm_num) (by norm_num)
      (le_trans (by norm_num) z95_bounds.1)⟩

/-! ### Containment of the remaining interval estimators, and claim C3 -/

lemma exp_log_interval {v z s : ℝ} (hv : 0 < v) (hzs : 0 ≤ z * s) :
    Real.exp (Real.log v - z * s) ≤ v ∧ v ≤ Real.exp (Real.log v + z * s) := by
  constructor
  · calc Real.exp (Real.log v - z * s) ≤ Real.exp (Real.log v) :=
      Real.exp_le_exp.mpr (by linarith)
    _ = v := Real.exp_log hv
  · calc v = Real.exp (Real.log v) := (Real.exp_log hv).symm
    _ ≤ Real.exp (Real.log v + z * s) := Real.exp_le_exp.mpr (by linarith)

lemma corrected_pos (tb : Table2x2) (ha : 0 ≤ tb.a) (hb : 0 ≤ tb.b)
    (hc : 0 ≤ tb.c) (hd : 0 ≤ tb.d) :
    0 < (applyContinuityCorrection tb).a ∧ 0 < (applyContinuityCorrection tb).b ∧
      0 < (applyContinuityCorrection tb).c ∧ 0 < (applyContinuityCorrection tb).d := by
  unfold applyContinuityCorrection
  split
  · refine ⟨?_, ?_, ?_, ?_⟩ <;> simp <;> linarith
  · rename_i hcond
    push_neg at hcond
    exact ⟨lt_of_le_of_ne ha (Ne.symm hcond.1), lt_of_le_of_ne hb (Ne.symm hcond.2.1),
      lt_of_le_of_ne hc (Ne.symm hcond.2.2.1), lt_of_le_of_ne hd (Ne.symm hcond.2.2.2)⟩

lemma computeRD_contained (tb : Table2x2) (conf : ℝ) (hz : 0 ≤ getZCritical conf) :
    (computeRD tb conf).lower ≤ (computeRD tb conf).value ∧
      (computeRD tb conf).value ≤ (computeRD tb conf).upper := by
  simp only [computeRD]
  have h := mul_nonneg hz (Real.sqrt_nonneg
    (tb.a / (tb.a + tb.b) * (1 - tb.a / (tb.a + tb.b)) / (tb.a + tb.b) +
      tb.c / (tb.c + tb.d) * (1 - tb.c / (tb.c + tb.d)) / (tb.c + tb.d)))
  constructor <;> simp <;> linarith

lemma computeRR_contained (tb : Table2x2) (conf : ℝ) (hz : 0 ≤ getZCritical conf)
    (ha : 0 ≤ tb.a) (hb : 0 ≤ tb.b) (hc : 0 ≤ tb.c) (hd : 0 ≤ tb.d) :
    (computeRR tb conf).lower ≤ (computeRR tb conf).value ∧
      (computeRR tb conf).value ≤ (computeRR tb conf).upper := by
  obtain ⟨ha', hb', hc', hd'⟩ := corrected_pos tb ha hb hc hd
  simp only [computeRR]
  set t := applyContinuityCorrection tb
  have hrr : 0 < t.a / (t.a + t.b) / (t.c / (t.c + t.d)) := by positivity
  have hzs : 0 ≤ getZCritical conf *
      Real.sqrt ((1 / t.a - 1 / (t.a + t.b)) + (1 / t.c - 1 / (t.c + t.d))) :=
    mul_nonneg hz (Real.sqrt_nonneg _)
  exact exp_log_interval hrr hzs

lemma computeOR_contained (tb : Table2x2) (conf : ℝ) (hz : 0 ≤ getZCritical conf)
    (ha : 0 ≤ tb.a) (hb : 0 ≤ tb.b) (hc : 0 ≤ tb.c) (hd : 0 ≤ tb.d) :
    (computeOR tb conf).lower ≤ (computeOR tb conf).value ∧
      (computeOR tb conf).value ≤ (computeOR tb conf).upper := by
  obtain ⟨ha', hb', hc', hd'⟩ := corrected_pos tb ha hb hc hd
  simp only [computeOR]
  set t := applyContinuityCorrection tb
  have hor : 0 < t.a * t.d / (t.b * t.c) := by positivity
  have hzs : 0 ≤ getZCritical conf *
      Real.sqrt (1 / t.a + 1 / t.b + 1 / t.c + 1 / t.d) :=
    mul_nonneg hz (Real.sqrt_nonneg _)
  exact exp_log_interval hor hzs

lemma wald_contained (x n : ℕ) (conf : ℝ) (hz : 0 ≤ getZCritical conf) :
    waldLow x n conf ≤ propPhat x n ∧ propPhat x n ≤ waldHigh x n conf := by
  unfold waldLow waldHigh
  have h := mul_nonneg hz
    (Real.sqrt_nonneg (propPhat x n * (1 - propPhat x n) / n))
  constructor <;> linarith

lemma smr_contained (o : ℕ) (e : ℝ) (he : 0 < e) :
    smrLower o e ≤ smrValue o e ∧ smrValue o e ≤ smrUpper o e := by
  constructor
  · unfold smrLower smrValue
    split
    · rename_i h0
      rw [h0]
      positivity
    · rename_i h0
      have ho1 : (1 : ℝ) ≤ (o : ℝ) := by
        exact_mod_cast Nat.one_le_iff_ne_zero.mpr h0
      have hro : 0 < Real.sqrt o := Real.sqrt_pos.mpr (by linarith)
      have hbase : 1 - 1 / (9 * (o : ℝ)) - 1.96 / (3 * Real.sqrt o) ≤ 1 := by
        have h1 : (0 : ℝ) ≤ 1 / (9 * (o : ℝ)) := by positivity
        have h2 : (0 : ℝ) ≤ 1.96 / (3 * Real.sqrt o) := by positivity
        linarith
    
      have hcube : (1 - 1 / (9 * (o : ℝ)) - 1.96 / (3 * Real.sqrt o)) ^ (3 : ℕ) ≤ 1 := by
        set w := 1 - 1 / (9 * (o : ℝ)) - 1.96 / (3 * Real.sqrt o) with hwdef
        have haux : (0 : ℝ) ≤ 1 + w + w ^ 2 := by nlinarith [sq_nonneg (2 * w + 1)]
        nlinarith [mul_nonneg (sub_nonneg.mpr hbase) haux]
      rw [div_le_div_iff_of_pos_right he]
      calc (o : ℝ) * (1 - 1 / (9 * (o : ℝ)) - 1.96 / (3 * Real.sqrt o)) ^ (3 : ℕ)
          ≤ (o : ℝ) * 1 := mul_le_mul_of_nonneg_left hcube (Nat.cast_nonneg o)
      _ = (o : ℝ) := mul_one _
  · unfold smrValue smrUpper
    set j := (o : ℝ) + 1 with hjdef
    have hj1 : (1 : ℝ) ≤ j := by
      rw [hjdef]
      have : (0 : ℝ) ≤ (o : ℝ) := Nat.cast_nonneg o
      linarith
    have hj0 : (0 : ℝ) < j := by linarith
    have hr0 : 0 < Real.sqrt j := Real.sqrt_pos.mpr hj0
    have hr1 : 1 ≤ Real.sqrt j := by
      rw [show (1 : ℝ) = Real.sqrt 1 from Real.sqrt_one.symm]
      exact Real.sqrt_le_sqrt hj1
    have hjr : j / Real.sqrt j = Real.sqrt j := Real.div_sqrt
    set y := 1.96 / (3 * Real.sqrt j) - 1 / (9 * j) with hydef
    have hy1 : -(1 : ℝ) / 9 ≤ y := by
      have h1 : (0 : ℝ) ≤ 1.96 / (3 * Real.sqrt j) := by positivity
      have h2 : 1 / (9 * j) ≤ 1 / 9 := by
        rw [div_le_div_iff₀ (by positivity) (by norm_num)]
        nlinarith
      rw [hydef]
      linarith
    have hbody : (1 : ℝ) - 1 / (9 * j) + 1.96 / (3 * Real.sqrt j) = 1 + y := by
      rw [hydef]; ring
    have hjy : j * y = 1.96 / 3 * Real.sqrt j - 1 / 9 := by
      rw [hydef, mul_sub]
      congr 1
      · rw [show j * (1.96 / (3 * Real.sqrt j)) = 1.96 / 3 * (j / Real.sqrt j) by ring, hjr]
      · field_simp
        ring
    have hoj : (o : ℝ) = j - 1 := by rw [hjdef]; ring
    rw [hbody, div_le_div_iff_of_pos_right he]
    clear_value j y
    have hcube : 1 + 3 * y ≤ (1 + y) ^ (3 : ℕ) := by
      nlinarith [mul_nonneg (sq_nonneg y) (by linarith : (0 : ℝ) ≤ 3 + y)]
    have hmain : j * (1 + 3 * y) ≤ j * (1 + y) ^ (3 : ℕ) :=
      mul_le_mul_of_nonneg_left hcube hj0.le
    nlinarith [hmain, hjy, hr1, hoj]

/-- C3, amended: the invariant `lower ≤ value ≤ upper` holds for the risk
difference, risk ratio and odds ratio (nonnegative cell counts, nonnegative
normal critical value), for the Wald and Wilson proportion intervals
(`0 ≤ x ≤ n`, `n ≥ 1`), and for the standardized-ratio interval (positive
expected count) — but not for the exact Poisson rate interval, whose lower
bound can exceed both the value and the upper bound (see the counterexample
at `k = 5`, `T = 1000`, 95%); the Wilson-with-continuity-correction,
Clopper–Pearson, Byar and variance/SD intervals are likewise not covered by
the invariant. -/
theorem c3_amended (tb : Table2x2) (conf : ℝ) (x n k : ℕ) (e : ℝ)
    (hz : 0 ≤ getZCritical conf)
    (ha : 0 ≤ tb.a) (hb : 0 ≤ tb.b) (hc : 0 ≤ tb.c) (hd : 0 ≤ tb.d)
    (hn : 1 ≤ n) (hx : x ≤ n) (he : 0 < e) :
    ((computeRD tb conf).lower ≤ (computeRD tb conf).value ∧
      (computeRD tb conf).value ≤ (computeRD tb conf).upper) ∧
    ((computeRR tb conf).lower ≤ (computeRR tb conf).value ∧
      (computeRR tb conf).value ≤ (computeRR tb conf).upper) ∧
    ((computeOR tb conf).lower ≤ (computeOR tb conf).value ∧
      (computeOR tb conf).value ≤ (computeOR tb conf).upper) ∧
    (waldLow x n conf ≤ propPhat x n ∧ propPhat x n ≤ waldHigh x n conf) ∧
    (wilsonLow x n conf ≤ propPhat x n ∧ propPhat x n ≤ wilsonHigh x n conf) ∧
    (smrLower k e ≤ smrValue k e ∧ smrValue k e ≤ smrUpper k e) := by
  obtain ⟨hw1, hw2, hw3, hw4⟩ := wilson_contained x n conf hn hx hz
  exact ⟨computeRD_contained tb conf hz,
    computeRR_contained tb conf hz ha hb hc hd,
    computeOR_contained tb conf hz ha hb hc hd,
    wald_contained x n conf hz, ⟨hw2, hw3⟩,
    smr_contained k e he⟩

theorem c3_amended_witness :
    (0 ≤ getZCritical 95 ∧ (1 : ℕ) ≤ 2 ∧ (1 : ℕ) ≤ 2 ∧ (0 : ℝ) < 1) ∧
    (((computeRD ⟨1, 1, 1, 1⟩ 95).lower ≤ (computeRD ⟨1, 1, 1, 1⟩ 95).value ∧
        (computeRD ⟨1, 1, 1, 1⟩ 95).value ≤ (computeRD ⟨1, 1, 1, 1⟩ 95).upper) ∧
      ((computeRR ⟨1, 1, 1, 1⟩ 95).lower ≤ (computeRR ⟨1, 1, 1, 1⟩ 95).value ∧
        (computeRR ⟨1, 1, 1, 1⟩ 95).value ≤ (computeRR ⟨1, 1, 1, 1⟩ 95).upper) ∧
      ((computeOR ⟨1, 1, 1, 1⟩ 95).lower ≤ (computeOR ⟨1, 1, 1, 1⟩ 95).value ∧
        (computeOR ⟨1, 1, 1, 1⟩ 95).value ≤ (computeOR ⟨1, 1, 1, 1⟩ 95).upper) ∧
      (waldLow 1 2 95 ≤ propPhat 1 2 ∧ propPhat 1 2 ≤ waldHigh 1 2 95) ∧
      (wilsonLow 1 2 95 ≤ propPhat 1 2 ∧ propPhat 1 2 ≤ wilsonHigh 1 2 95) ∧
      (smrLower 3 1 ≤ smrValue 3 1 ∧ smrValue 3 1 ≤ smrUpper 3 1)) :=
  ⟨⟨le_trans (by norm_num) z95_bounds.1, by norm_num, by norm_num, by norm_num⟩,
    c3_amended ⟨1, 1, 1, 1⟩ 95 1 2 3 1
      (le_trans (by norm_num) z95_bounds.1)
      (by norm_num) (by norm_num) (by norm_num) (by norm_num)
      (by norm_num) (by norm_num) (by norm_num)⟩

/-- The accumulated even-loop coefficient is positive. -/
lemma evenC_pos (j : ℕ) : 0 < evenC j := by
  induction j with
  | zero => norm_num [evenC]
  | succ j ih =>
    rw [evenC]
    have h1 : (0 : ℝ) < 2 * (j : ℝ) + 1 := by positivity
    have h2 : (0 : ℝ) < 2 * (j : ℝ) + 2 := by positivity
    exact mul_pos ih (div_pos h1 h2)

/-- The accumulated odd-loop coefficient is positive. -/
lemma oddC_pos (j : ℕ) : 0 < oddC j := by
  induction j with
  | zero => norm_num [oddC]
  | succ j ih =>
    rw [oddC]
    have h1 : (0 : ℝ) < 2 * (j : ℝ) + 2 := by positivity
    have h2 : (0 : ℝ) < 2 * (j : ℝ) + 3 := by positivity
    exact mul_pos ih (div_pos h1 h2)

/-- Closed form of the even-loop term. -/
lemma evenTerm_eq (s c2 : ℝ) (j : ℕ) : evenTerm s c2 j = evenC j * s * c2 ^ j := by
  induction j with
  | zero => simp [evenTerm, evenC]
  | succ j ih => rw [evenTerm, evenC, ih]; ring

/-- Closed form of the odd-loop term. -/
lemma oddTerm_eq (s c2 : ℝ) (j : ℕ) : oddTerm s c2 j = oddC j * s * c2 ^ j := by
  induction j with
  | zero => simp [oddTerm, oddC]
  | succ j ih => rw [oddTerm, oddC, ih]; ring

/-- The even-loop partial sum is nonnegative for nonnegative inputs. -/
lemma evenPoly_nonneg {s c2 : ℝ} (hs : 0 ≤ s) (hc2 : 0 ≤ c2) (M : ℕ) :
    0 ≤ evenPoly s c2 M := by
  induction M with
  | zero => simpa [evenPoly] using hs
  | succ M ih =>
    rw [evenPoly]
    have : 0 ≤ evenTerm s c2 (M + 1) := by
      rw [evenTerm_eq]
      exact mul_nonneg (mul_nonneg (evenC_pos _).le hs) (pow_nonneg hc2 _)
    linarith

/-- The odd-loop partial sum is nonnegative for nonnegative inputs. -/
lemma oddPoly_nonneg {s c2 : ℝ} (hs : 0 ≤ s) (hc2 : 0 ≤ c2) (M : ℕ) :
    0 ≤ oddPoly s c2 M := by
  induction M with
  | zero => simpa [oddPoly] using hs
  | succ M ih =>
    rw [oddPoly]
    have : 0 ≤ oddTerm s c2 (M + 1) := by
      rw [oddTerm_eq]
      exact mul_nonneg (mul_nonneg (oddC_pos _).le hs) (pow_nonneg hc2 _)
    linarith

/-- With `c2 = 0` every term beyond the first vanishes. -/
lemma evenPoly_c2_zero (s : ℝ) (M : ℕ) : evenPoly s 0 M = s := by
  induction M with
  | zero => rfl
  | succ M ih => rw [evenPoly, evenTerm, ih]; ring

/-- With `c2 = 0` every term beyond the first vanishes. -/
lemma oddPoly_c2_zero (s : ℝ) (M : ℕ) : oddPoly s 0 M = s := by
  induction M with
  | zero => rfl
  | succ M ih => rw [oddPoly, oddTerm, ih]; ring

/-- With `s = 0` the even partial sum vanishes. -/
lemma evenPoly_s_zero (c2 : ℝ) (M : ℕ) : evenPoly 0 c2 M = 0 := by
  induction M with
  | zero => rfl
  | succ M ih => rw [evenPoly, evenTerm_eq, ih]; ring

/-- With `s = 0` the odd partial sum vanishes. -/
lemma oddPoly_s_zero (c2 : ℝ) (M : ℕ) : oddPoly 0 c2 M = 0 := by
  induction M with
  | zero => rfl
  | succ M ih => rw [oddPoly, oddTerm_eq, ih]; ring

/-- Recurrence of the even coefficients in product form. -/
lemma evenC_succ_mul (M : ℕ) :
    (2 * (M : ℝ) + 2) * evenC (M + 1) = (2 * (M : ℝ) + 1) * evenC M := by
  rw [evenC]
  have h2 : (2 * (M : ℝ) + 2) ≠ 0 := by positivity
  field_simp
  ring

/-- Recurrence of the odd coefficients in product form. -/
lemma oddC_succ_mul (M : ℕ) :
    (2 * (M : ℝ) + 3) * oddC (M + 1) = (2 * (M : ℝ) + 2) * oddC M := by
  rw [oddC]
  have h2 : (2 * (M : ℝ) + 3) ≠ 0 := by positivity
  field_simp
  ring

/-- Derivative of the even partial sum along `θ ↦ (sin θ, cos²θ)`: the
telescoping identity `(2m+2)·c_{m+1} = (2m+1)·c_m` collapses the sum of term
derivatives to a single power of `cos`. -/
lemma evenH_hasDerivAt (M : ℕ) (θ : ℝ) :
    HasDerivAt (fun x => evenPoly (Real.sin x) (Real.cos x * Real.cos x) M)
      ((2 * (M : ℝ) + 1) * evenC M * Real.cos θ ^ (2 * M + 1)) θ := by
  induction M with
  | zero =>
    have h : (fun x => evenPoly (Real.sin x) (Real.cos x * Real.cos x) 0) =
        fun x => Real.sin x := by
      funext x; rfl
    rw [h]
    have := Real.hasDerivAt_sin θ
    convert this using 1
    simp [evenC]
  | succ M ih =>
    have heq : (fun x => evenPoly (Real.sin x) (Real.cos x * Real.cos x) (M + 1)) =
        fun x => evenPoly (Real.sin x) (Real.cos x * Real.cos x) M +
          evenC (M + 1) * (Real.sin x * (Real.cos x * Real.cos x) ^ (M + 1)) := by
      funext x
      rw [evenPoly, evenTerm_eq]
      ring
    rw [heq]
    have hcc : HasDerivAt (fun x => Real.cos x * Real.cos x)
        (-Real.sin θ * Real.cos θ + Real.cos θ * -Real.sin θ) θ :=
      (Real.hasDerivAt_cos θ).mul (Real.hasDerivAt_cos θ)
    have hpow := hcc.pow (M + 1)
    have hmul := (Real.hasDerivAt_sin θ).mul hpow
    have hinc := hmul.const_mul (evenC (M + 1))
    have := ih.add hinc
    convert this using 1
    have hE := evenC_succ_mul M
    have hs2 : Real.sin θ ^ 2 = 1 - Real.cos θ ^ 2 := Real.sin_sq θ
    push_cast
    linear_combination (Real.cos θ ^ (2 * M + 1)) * hE +
      (2 * (M : ℝ) + 2) * evenC (M + 1) * Real.cos θ ^ (2 * M + 1) * hs2

/-- Derivative of `θ + (odd partial sum)·cos θ`: an even power of `cos`,
hence everywhere nonnegative. -/
lemma oddF_hasDerivAt (M : ℕ) (θ : ℝ) :
    HasDerivAt (fun x => x + oddPoly (Real.sin x) (Real.cos x * Real.cos x) M * Real.cos x)
      ((2 * (M : ℝ) + 2) * oddC M * Real.cos θ ^ (2 * M + 2)) θ := by
  induction M with
  | zero =>
    have h : (fun x => x + oddPoly (Real.sin x) (Real.cos x * Real.cos x) 0 * Real.cos x) =
        fun x => x + Real.sin x * Real.cos x := by
      funext x; rfl
    rw [h]
    have := (hasDerivAt_id θ).add ((Real.hasDerivAt_sin θ).mul (Real.hasDerivAt_cos θ))
    convert this using 1
    have hs2 : Real.sin θ ^ 2 = 1 - Real.cos θ ^ 2 := Real.sin_sq θ
    simp only [oddC]
    linear_combination hs2
  | succ M ih =>
    have heq : (fun x => x + oddPoly (Real.sin x) (Real.cos x * Real.cos x) (M + 1) * Real.cos x) =
        fun x => (x + oddPoly (Real.sin x) (Real.cos x * Real.cos x) M * Real.cos x) +
          oddC (M + 1) * (Real.sin x * (Real.cos x * Real.cos x) ^ (M + 1) * Real.cos x) := by
      funext x
      rw [oddPoly, oddTerm_eq]
      ring
    rw [heq]
    have hcc : HasDerivAt (fun x => Real.cos x * Real.cos x)
        (-Real.sin θ * Real.cos θ + Real.cos θ * -Real.sin θ) θ :=
      (Real.hasDerivAt_cos θ).mul (Real.hasDerivAt_cos θ)
    have hpow := hcc.pow (M + 1)
    have hmul := ((Real.hasDerivAt_sin θ).mul hpow).mul (Real.hasDerivAt_cos θ)
    have hinc := hmul.const_mul (oddC (M + 1))
    have := ih.add hinc
    convert this using 1
    have hO := oddC_succ_mul M
    have hs2 : Real.sin θ ^ 2 = 1 - Real.cos θ ^ 2 := Real.sin_sq θ
    push_cast
    linear_combination (Real.cos θ ^ (2 * M + 2)) * hO +
      (2 * (M : ℝ) + 3) * oddC (M + 1) * Real.cos θ ^ (2 * M + 2) * hs2

/-- On `[0, π/2]` the even partial sum along `θ ↦ (sin θ, cos²θ)` is at most
its value at `π/2`, which is `1`. -/
lemma evenH_le_one (M : ℕ) {θ : ℝ} (h0 : 0 ≤ θ) (h1 : θ ≤ Real.pi / 2) :
    evenPoly (Real.sin θ) (Real.cos θ * Real.cos θ) M ≤ 1 := by
  have hpi : (0 : ℝ) < Real.pi / 2 := by positivity
  have hmono : MonotoneOn (fun x => evenPoly (Real.sin x) (Real.cos x * Real.cos x) M)
      (Set.Icc 0 (Real.pi / 2)) := by
    apply monotoneOn_of_deriv_nonneg (convex_Icc _ _)
    · exact (Differentiable.continuous
        (fun x => (evenH_hasDerivAt M x).differentiableAt)).continuousOn
    · intro x _
      exact (evenH_hasDerivAt M x).differentiableAt.differentiableWithinAt
    · intro x hx
      rw [interior_Icc] at hx
      rw [(evenH_hasDerivAt M x).deriv]
      have hc : 0 < Real.cos x :=
        Real.cos_pos_of_mem_Ioo ⟨by linarith [hx.1], hx.2⟩
      have h1' : (0 : ℝ) < 2 * (M : ℝ) + 1 := by positivity
      exact le_of_lt (mul_pos (mul_pos h1' (evenC_pos M)) (pow_pos hc _))
  have hval := hmono ⟨h0, h1⟩ (Set.right_mem_Icc.mpr hpi.le) h1
  have hend : evenPoly (Real.sin (Real.pi / 2))
      (Real.cos (Real.pi / 2) * Real.cos (Real.pi / 2)) M = 1 := by
    rw [Real.sin_pi_div_two, Real.cos_pi_div_two, mul_zero, evenPoly_c2_zero]
  calc evenPoly (Real.sin θ) (Real.cos θ * Real.cos θ) M
      ≤ evenPoly (Real.sin (Real.pi / 2))
          (Real.cos (Real.pi / 2) * Real.cos (Real.pi / 2)) M := hval
    _ = 1 := hend

/-- `θ + (odd partial sum)·cos θ` is monotone, hence at most its value `π/2`
at `θ = π/2`. -/
lemma oddF_le (M : ℕ) {θ : ℝ} (h1 : θ ≤ Real.pi / 2) :
    θ + oddPoly (Real.sin θ) (Real.cos θ * Real.cos θ) M * Real.cos θ ≤ Real.pi / 2 := by
  have hmono : Monotone
      (fun x => x + oddPoly (Real.sin x) (Real.cos x * Real.cos x) M * Real.cos x) := by
    apply monotone_of_deriv_nonneg
    · exact fun x => (oddF_hasDerivAt M x).differentiableAt
    · intro x
      rw [(oddF_hasDerivAt M x).deriv]
      have h1' : (0 : ℝ) < 2 * (M : ℝ) + 2 := by positivity
      have h2' : (0 : ℝ) ≤ Real.cos x ^ (2 * M + 2) := by
        have : Real.cos x ^ (2 * M + 2) = (Real.cos x ^ (M + 1)) ^ 2 := by
          rw [← pow_mul]; ring_nf
        rw [this]; exact sq_nonneg _
      exact mul_nonneg (mul_nonneg h1'.le (oddC_pos M).le) h2'
  have hval := hmono h1
  have hend : Real.pi / 2 + oddPoly (Real.sin (Real.pi / 2))
      (Real.cos (Real.pi / 2) * Real.cos (Real.pi / 2)) M * Real.cos (Real.pi / 2) =
      Real.pi / 2 := by
    rw [Real.cos_pi_div_two, mul_zero]; ring
  calc θ + oddPoly (Real.sin θ) (Real.cos θ * Real.cos θ) M * Real.cos θ
      ≤ Real.pi / 2 + oddPoly (Real.sin (Real.pi / 2))
          (Real.cos (Real.pi / 2) * Real.cos (Real.pi / 2)) M *
          Real.cos (Real.pi / 2) := hval
    _ = Real.pi / 2 := hend

/-- The Horner polynomial of the A&S `erf` approximation is nonnegative on
`[0, 1]`: it equals `a5·(u² - 0.6845·u + 0.4353)²` plus a residual cubic that
is nonnegative there. -/
lemma erfPoly_nonneg_unit {u : ℝ} (h0 : 0 ≤ u) (h1 : u ≤ 1) : 0 ≤ erfPoly u := by
  unfold erfPoly
  nlinarith [sq_nonneg (u * u - 0.6845 * u + 0.4353),
    mul_nonneg (mul_nonneg h0 (sub_nonneg.mpr h1)) (by linarith : (0 : ℝ) ≤ 1 + u),
    mul_nonneg h0 h0, h0]

/-- On `[0, 1]` the product `erfPoly u * u` stays below `1`:
`1 - erfPoly u * u = (1-u)·S(u) + 10⁻⁹` with `S` nonnegative on `[0, 1]`. -/
lemma erfPoly_mul_le_one {u : ℝ} (h0 : 0 ≤ u) (h1 : u ≤ 1) : erfPoly u * u ≤ 1 := by
  have hS : 0 ≤ 1.061405429 * u ^ 4 + (-0.391746598) * u ^ 3 + 1.029667143 * u ^ 2 +
      0.745170407 * u + 0.999999999 := by
    nlinarith [sq_nonneg (u * u - 0.1846 * u + 0.5025),
      mul_nonneg h0 (sub_nonneg.mpr h1),
      mul_nonneg (mul_nonneg h0 h0) h0, h0]
  unfold erfPoly
  nlinarith [mul_nonneg (sub_nonneg.mpr h1) hS]

/-- For a nonnegative argument the A&S `erf` approximation stays in `[0, 1]`. -/
lemma erf_mem_unit {x : ℝ} (hx : 0 ≤ x) : 0 ≤ erf x ∧ erf x ≤ 1 := by
  unfold erf
  rw [if_neg (not_lt.mpr hx), abs_of_nonneg hx, one_mul]
  have hden : (1 : ℝ) ≤ 1 + 0.3275911 * x := by nlinarith
  have hden0 : (0 : ℝ) < 1 + 0.3275911 * x := by linarith
  set u := 1 / (1 + 0.3275911 * x) with hu
  have hu0 : 0 ≤ u := by positivity
  have hu1 : u ≤ 1 := by
    rw [hu, div_le_one hden0]; exact hden
  have hE0 : 0 < Real.exp (-(x * x)) := Real.exp_pos _
  have hE1 : Real.exp (-(x * x)) ≤ 1 := by
    rw [← Real.exp_zero]
    exact Real.exp_le_exp.mpr (by nlinarith)
  have hQ0 : 0 ≤ erfPoly u * u := mul_nonneg (erfPoly_nonneg_unit hu0 hu1) hu0
  have hQ1 : erfPoly u * u ≤ 1 := erfPoly_mul_le_one hu0 hu1
  constructor
  · nlinarith
  · nlinarith

/-- For a nonnegative argument the approximate normal CDF lies in `[1/2, 1]`. -/
lemma getNormalCDF_mem {z : ℝ} (hz : 0 ≤ z) :
    1 / 2 ≤ getNormalCDF z ∧ getNormalCDF z ≤ 1 := by
  unfold getNormalCDF
  have harg : 0 ≤ z / Real.sqrt 2 := div_nonneg hz (Real.sqrt_nonneg 2)
  obtain ⟨h1, h2⟩ := erf_mem_unit harg
  constructor <;> nlinarith

/-- At `t = 0` the trigonometric recursion yields `p = 1` for every `df`. -/
lemma tPValueP_zero (df : ℕ) : tPValueP 0 df = 1 := by
  simp only [tPValueP, abs_zero, zero_div, Real.arctan_zero, Real.sin_zero,
    Real.cos_zero, one_mul, mul_zero, mul_one]
  split_ifs with h1 h2
  · ring
  · rw [oddPoly_s_zero]; ring
  · rw [evenPoly_s_zero]; ring

/-- The trigonometric recursion always produces a value in `[0, 1]`. -/
lemma tPValueP_mem (t : ℝ) (df : ℕ) : 0 ≤ tPValueP t df ∧ tPValueP t df ≤ 1 := by
  have hpi := Real.pi_pos
  simp only [tPValueP]
  set θ := Real.arctan (|t| / Real.sqrt df) with hθ
  have hθ0 : 0 ≤ θ := by
    rw [hθ, ← Real.arctan_zero]
    exact Real.arctan_strictMono.monotone
      (div_nonneg (abs_nonneg t) (Real.sqrt_nonneg _))
  have hθ1 : θ < Real.pi / 2 := Real.arctan_lt_pi_div_two _
  have hs : 0 ≤ Real.sin θ :=
    Real.sin_nonneg_of_nonneg_of_le_pi hθ0 (by linarith)
  have hc : 0 ≤ Real.cos θ := Real.cos_nonneg_of_mem_Icc ⟨by linarith, hθ1.le⟩
  have hc1 : Real.cos θ ≤ 1 := Real.cos_le_one θ
  split_ifs with h1 h2
  · constructor
    · have h : (2 / Real.pi) * θ ≤ 1 := by
        rw [div_mul_eq_mul_div, div_le_one hpi]; linarith
      linarith
    · have h : 0 ≤ (2 / Real.pi) * θ := by positivity
      linarith
  · have hF := @oddF_le ((df - 3) / 2) θ hθ1.le
    have hpoly : 0 ≤ oddPoly (Real.sin θ) (Real.cos θ * Real.cos θ) ((df - 3) / 2) :=
      oddPoly_nonneg hs (mul_self_nonneg _) _
    have hprod : 0 ≤ oddPoly (Real.sin θ) (Real.cos θ * Real.cos θ) ((df - 3) / 2) *
        Real.cos θ := mul_nonneg hpoly hc
    have h2pi : (0 : ℝ) < 2 / Real.pi := by positivity
    constructor
    · have hle : (2 / Real.pi) *
          (θ + oddPoly (Real.sin θ) (Real.cos θ * Real.cos θ) ((df - 3) / 2) *
            Real.cos θ) ≤ (2 / Real.pi) * (Real.pi / 2) :=
        mul_le_mul_of_nonneg_left hF h2pi.le
      have hval : (2 / Real.pi) * (Real.pi / 2) = 1 := by field_simp
      linarith
    · have h : 0 ≤ (2 / Real.pi) *
          (θ + oddPoly (Real.sin θ) (Real.cos θ * Real.cos θ) ((df - 3) / 2) *
            Real.cos θ) :=
        mul_nonneg h2pi.le (by linarith)
      linarith
  · have hle := evenH_le_one ((df - 2) / 2) hθ0 hθ1.le
    have hpoly : 0 ≤ evenPoly (Real.sin θ) (Real.cos θ * Real.cos θ) ((df - 2) / 2) :=
      evenPoly_nonneg hs (mul_self_nonneg _) _
    constructor
    · have h : evenPoly (Real.sin θ) (Real.cos θ * Real.cos θ) ((df - 2) / 2) *
          Real.cos θ ≤ 1 := by nlinarith
      linarith
    · have h : 0 ≤ evenPoly (Real.sin θ) (Real.cos θ * Real.cos θ) ((df - 2) / 2) *
          Real.cos θ := mul_nonneg hpoly hc
      linarith

/-- **C7.** For every real `t` and every `df ≥ 1`, `getTPValue` returns a
triple with `lower + upper = 1`, `twoSided = 2·min(lower, upper)`, and the
two-sided value in `[0, 1]`. -/
theorem c7_tPValue_invariants (t : ℝ) (df : ℕ) (_hdf : 1 ≤ df) :
    (getTPValue t df).lower + (getTPValue t df).upper = 1 ∧
    (getTPValue t df).twoSided =
      2 * min (getTPValue t df).lower (getTPValue t df).upper ∧
    0 ≤ (getTPValue t df).twoSided ∧ (getTPValue t df).twoSided ≤ 1 := by
  by_cases h100 : 100 < df
  · simp only [getTPValue, if_pos h100]
    obtain ⟨hpZ1, hpZ2⟩ := getNormalCDF_mem (abs_nonneg t)
    by_cases ht : t < 0
    · simp only [if_pos ht]
      refine ⟨by ring, ?_, by linarith, by linarith⟩
      rw [min_eq_right (by linarith)]
    · simp only [if_neg ht]
      refine ⟨by ring, ?_, by linarith, by linarith⟩
      rw [min_eq_left (by linarith)]
  · simp only [getTPValue, if_neg h100]
    obtain ⟨hp0, hp1⟩ := tPValueP_mem t df
    have hclamp : max 0 (min 1 (tPValueP t df)) = tPValueP t df := by
      rw [min_eq_right hp1, max_eq_right hp0]
    rcases lt_trichotomy t 0 with ht | ht | ht
    · simp only [if_pos ht, if_neg (not_lt.mpr ht.le)]
      refine ⟨by ring, ?_, ?_, ?_⟩
      · rw [hclamp, min_eq_right (by linarith)]; ring
      · rw [hclamp]; exact hp0
      · rw [hclamp]; exact hp1
    · subst ht
      simp only [if_neg (lt_irrefl (0 : ℝ))]
      rw [tPValueP_zero] at hclamp ⊢
      refine ⟨by norm_num, ?_, ?_, ?_⟩
      · rw [hclamp, min_self]; ring
      · rw [hclamp]; norm_num
      · rw [hclamp]
    · simp only [if_neg (not_lt.mpr ht.le), if_pos ht]
      refine ⟨by ring, ?_, ?_, ?_⟩
      · rw [hclamp, min_eq_left (by linarith)]; ring
      · rw [hclamp]; exact hp0
      · rw [hclamp]; exact hp1

theorem c7_tPValue_invariants_witness :
    (1 : ℕ) ≤ 2 ∧
    ((getTPValue 1 2).lower + (getTPValue 1 2).upper = 1 ∧
      (getTPValue 1 2).twoSided =
        2 * min (getTPValue 1 2).lower (getTPValue 1 2).upper ∧
      0 ≤ (getTPValue 1 2).twoSided ∧ (getTPValue 1 2).twoSided ≤ 1) :=
  ⟨by norm_num, c7_tPValue_invariants 1 2 (by norm_num)⟩
